import Mathlib

/-!
Verification of `til::ticket_lock` and `til::recursive_ticket_lock`
(src/cascadia/WindowsTerminal/WindowEmperor.h, `namespace til`).

Modelling conventions, used throughout:

* All counters in the source are `uint32_t`.  We embed them as `Nat`
  together with the modulus `W = 2 ^ 32`: a stored machine value is the
  `% W` image of the embedded value, every mutation that the hardware
  performs modulo `2^32` is written with an explicit `% W`, and every
  comparison the code performs between two `uint32_t` values is written
  as equality of the `% W` images.  For the two ticket counters we keep
  the unbounded "history" value (number of fetch-adds / increments ever
  performed) as the state, which determines the machine value
  (`value % W`) exactly; this is a standard ghost-variable presentation
  and is bisimilar to the wrapped machine.
* Thread identifiers come from `GetCurrentThreadId()`: a nonzero
  `uint32_t`, so identifiers are `Nat`s that are `≠ 0` and `< W`; the
  sentinel `0` means "no owner".
* Blocking: a call that would block forever in the modelled execution
  context is represented by `Option.none`.
-/

/-- The `uint32_t` modulus `2 ^ 32`: all counters in the source wrap at `W`. -/
def W : Nat := 2 ^ 32

namespace til

/-- State of `til::ticket_lock`: the two `std::atomic<uint32_t>` counters,
kept as unbounded event counts (machine value = `_ % W`). -/
structure ticket_lock where
  _next_ticket : Nat
  _now_serving : Nat
deriving DecidableEq, Repr

namespace ticket_lock

/-- A freshly constructed `ticket_lock`: both counters `{ 0 }`. -/
def init : ticket_lock := ⟨0, 0⟩

/-- `ticket_lock::lock`, for a single-threaded (uncontended-environment)
execution: fetch-add `_next_ticket` to obtain the ticket, compare with the
loaded `_now_serving` (a `uint32_t` comparison, hence mod `W`).  If they
differ, no other thread will ever advance `_now_serving` in this execution
context, so the call blocks forever (`none`). -/
def lock (tl : ticket_lock) : Option ticket_lock :=
  if tl._next_ticket % W = tl._now_serving % W then
    some ⟨tl._next_ticket + 1, tl._now_serving⟩
  else
    none

/-- `ticket_lock::unlock`: fetch-add `_now_serving` (the
`til::atomic_notify_one` wake-up is a scheduling effect with no shared
state). -/
def unlock (tl : ticket_lock) : ticket_lock :=
  ⟨tl._next_ticket, tl._now_serving + 1⟩

/-- The `fetch_add(1)` on `_next_ticket` at the top of `lock()`:
returns the previous value (whose machine image is the ticket) and the
incremented state. -/
def fetch_add (tl : ticket_lock) : Nat × ticket_lock :=
  (tl._next_ticket, ⟨tl._next_ticket + 1, tl._now_serving⟩)

/-- The `do { atomic_wait; current = load } while (current != ticket)` loop
of `_lockSlow`, driven by the list `obs` of successive values other threads
make the re-loads of `_now_serving` observe.  Returns the index of the
first observation whose `uint32_t` image equals the ticket's, i.e. the
number of extra wait rounds after the first; `none` when no observation
ever matches (the call never returns). -/
def lockSlowRun (ticket : Nat) : List Nat → Option Nat
  | [] => none
  | c :: rest =>
    if c % W = ticket % W then some 0
    else (lockSlowRun ticket rest).map (· + 1)

/-- Whole `lock()` call, driven by `obs` as in `lockSlowRun`: returns the
ticket it obtained and the number of wait rounds taken (0 = fast path),
`none` if it blocks forever. -/
def lockRun (tl : ticket_lock) (obs : List Nat) : Option (Nat × Nat) :=
  let ticket := (fetch_add tl).1
  let current := tl._now_serving
  if ticket % W = current % W then some (ticket, 0)
  else (lockSlowRun ticket obs).map fun m => (ticket, m + 1)

end ticket_lock

/-- State of `til::recursive_ticket_lock`: the inner `ticket_lock`, the
owning thread id (`0` = none) and the recursion counter (a `uint32_t`,
always `< W`). -/
structure recursive_ticket_lock where
  _lock : ticket_lock
  _owner : Nat
  _recursion : Nat
deriving DecidableEq, Repr

/-- The state captured by `recursive_ticket_lock_suspension` (the token
returned by `suspend()`): owner id and recursion count at capture time. -/
structure recursive_ticket_lock_suspension where
  _owner : Nat
  _recursion : Nat
deriving DecidableEq, Repr

namespace recursive_ticket_lock

/-- A freshly constructed `recursive_ticket_lock`: inner counters 0,
no owner, recursion 0. -/
def init : recursive_ticket_lock := ⟨ticket_lock.init, 0, 0⟩

/-- `recursive_ticket_lock::lock`, called by thread `id`: if `_owner` is
not the caller, acquire the inner lock and store the caller's id; then
`_recursion++` (a `uint32_t` increment, mod `W`). -/
def lock (id : Nat) (s : recursive_ticket_lock) : Option recursive_ticket_lock :=
  if s._owner ≠ id then
    (s._lock.lock).map fun l2 => ⟨l2, id, (s._recursion + 1) % W⟩
  else
    some ⟨s._lock, s._owner, (s._recursion + 1) % W⟩

/-- `recursive_ticket_lock::unlock`: `--_recursion`, a `uint32_t`
decrement (wrapping to `W - 1` when the stored value is 0); when the
decremented value is 0, clear `_owner` and release the inner lock.  For
stored values `< W` this case split is exactly `(_recursion + (W - 1)) % W`. -/
def unlock (s : recursive_ticket_lock) : recursive_ticket_lock :=
  let r := if s._recursion = 0 then W - 1 else s._recursion - 1
  if r = 0 then ⟨s._lock.unlock, 0, 0⟩
  else ⟨s._lock, s._owner, r⟩

/-- `recursive_ticket_lock::suspend`, called by thread `id`: when the
caller is the owner, capture `(owner, recursion)`, zero both, release the
inner lock; otherwise capture `(0, 0)` and change nothing.  Returns the
new state and the token. -/
def suspend (id : Nat) (s : recursive_ticket_lock) :
    recursive_ticket_lock × recursive_ticket_lock_suspension :=
  if s._owner = id then
    (⟨s._lock.unlock, 0, 0⟩, ⟨id, s._recursion⟩)
  else
    (s, ⟨0, 0⟩)

/-- `recursive_ticket_lock::is_locked`, called by thread `id`: whether the
caller's id equals `_owner` (the source returns this comparison). -/
def is_locked (id : Nat) (s : recursive_ticket_lock) : Bool :=
  s._owner = id

/-- `recursive_ticket_lock::recursion_depth`, called by thread `id`. -/
def recursion_depth (id : Nat) (s : recursive_ticket_lock) : Nat :=
  if is_locked id s then s._recursion else 0

/-- `k` successive `lock()` calls by thread `id` (each must complete). -/
def lockN (id : Nat) : Nat → recursive_ticket_lock → Option recursive_ticket_lock
  | 0, s => some s
  | k + 1, s => (lock id s).bind (lockN id k)

/-- `k` successive `unlock()` calls. -/
def unlockN : Nat → recursive_ticket_lock → recursive_ticket_lock
  | 0, s => s
  | k + 1, s => unlockN k (unlock s)

end recursive_ticket_lock

/-- `~recursive_ticket_lock_suspension` (token destruction), restoring the
lock state `s`: a no-op for a `(0, _)` token; otherwise, if the lock's
current owner differs from the captured owner, re-acquire the inner lock
(this may block: `none`) and store the captured owner; in either case add
the captured recursion onto the current `_recursion` (uint32 addition). -/
def recursive_ticket_lock_suspension.destroy
    (tok : recursive_ticket_lock_suspension) (s : recursive_ticket_lock) :
    Option recursive_ticket_lock :=
  if tok._owner ≠ 0 then
    if s._owner ≠ tok._owner then
      (s._lock.lock).map fun l2 => ⟨l2, tok._owner, (s._recursion + tok._recursion) % W⟩
    else
      some ⟨s._lock, s._owner, (s._recursion + tok._recursion) % W⟩
  else
    some s

/-!
Contract-respecting use of the recursive lock, at completed-operation
granularity: a configuration is the lock state together with the list of
live (not yet destroyed) suspension tokens.  A step is a completed
`lock()`, `unlock()`, `suspend()` call or token destruction by some
thread; an operation that would block forever (its `Option` result is
`none`) or that violates the caller contract of the spec (an `unlock()`
by a thread with no outstanding `lock()`) is not a step.
-/

/-- Configuration: lock state plus live suspension tokens. -/
def Config : Type := recursive_ticket_lock × List recursive_ticket_lock_suspension

/-- One completed, contract-respecting operation.  Thread ids are nonzero
`uint32_t` values (`GetCurrentThreadId`). -/
inductive CStep : Config → Config → Prop
  | lock (id : Nat) (s s2 : recursive_ticket_lock)
      (toks : List recursive_ticket_lock_suspension) :
      id ≠ 0 → id < W → recursive_ticket_lock.lock id s = some s2 →
      CStep (s, toks) (s2, toks)
  | unlock (s : recursive_ticket_lock)
      (toks : List recursive_ticket_lock_suspension) :
      s._owner ≠ 0 →
      CStep (s, toks) (recursive_ticket_lock.unlock s, toks)
  | suspend (id : Nat) (s : recursive_ticket_lock)
      (toks : List recursive_ticket_lock_suspension) :
      id ≠ 0 → id < W →
      CStep (s, toks)
        ((recursive_ticket_lock.suspend id s).1,
          (recursive_ticket_lock.suspend id s).2 :: toks)
  | destroy (tok : recursive_ticket_lock_suspension)
      (s s2 : recursive_ticket_lock)
      (pre post : List recursive_ticket_lock_suspension) :
      recursive_ticket_lock_suspension.destroy tok s = some s2 →
      CStep (s, pre ++ tok :: post) (s2, pre ++ post)

/-- Configurations reachable by contract-respecting operation sequences
from a freshly constructed lock. -/
def CReach (c : Config) : Prop :=
  Relation.ReflTransGen CStep (recursive_ticket_lock.init, []) c

/-- Like `CStep`, additionally requiring that no `uint32_t` recursion
counter ever wraps: a `lock()` and a token destruction are only taken
when the resulting recursion count stays below `2 ^ 32`. -/
inductive BStep : Config → Config → Prop
  | lock (id : Nat) (s s2 : recursive_ticket_lock)
      (toks : List recursive_ticket_lock_suspension) :
      id ≠ 0 → id < W → s._recursion + 1 < W →
      recursive_ticket_lock.lock id s = some s2 →
      BStep (s, toks) (s2, toks)
  | unlock (s : recursive_ticket_lock)
      (toks : List recursive_ticket_lock_suspension) :
      s._owner ≠ 0 →
      BStep (s, toks) (recursive_ticket_lock.unlock s, toks)
  | suspend (id : Nat) (s : recursive_ticket_lock)
      (toks : List recursive_ticket_lock_suspension) :
      id ≠ 0 → id < W →
      BStep (s, toks)
        ((recursive_ticket_lock.suspend id s).1,
          (recursive_ticket_lock.suspend id s).2 :: toks)
  | destroy (tok : recursive_ticket_lock_suspension)
      (s s2 : recursive_ticket_lock)
      (pre post : List recursive_ticket_lock_suspension) :
      s._recursion + tok._recursion < W →
      recursive_ticket_lock_suspension.destroy tok s = some s2 →
      BStep (s, pre ++ tok :: post) (s2, pre ++ post)

/-- Reachability under `BStep`. -/
def BReach (c : Config) : Prop :=
  Relation.ReflTransGen BStep (recursive_ticket_lock.init, []) c

/-- Inductive invariant of contract-respecting, non-wrapping use:
recursion is positive exactly when there is an owner; the inner ticket
lock is held exactly when there is an owner; recursion counters stay
below `2 ^ 32`; and every live token captured from a real owner carries a
positive recursion count below `2 ^ 32`. -/
structure RInv (c : Config) : Prop where
  iff0 : 0 < c.1._recursion ↔ c.1._owner ≠ 0
  rec_lt : c.1._recursion < W
  free : c.1._owner = 0 → c.1._lock._next_ticket = c.1._lock._now_serving
  held : c.1._owner ≠ 0 → c.1._lock._next_ticket = c.1._lock._now_serving + 1
  toks : ∀ tok ∈ c.2, tok._owner ≠ 0 → 0 < tok._recursion ∧ tok._recursion < W

end til

/-!
Interleaved-execution model for the `ticket_lock` client scenario of the
spec's testable properties: `n` threads, each looping
`lock(); counter += 1; unlock();` a total of `K` times on one shared
`ticket_lock` and one shared counter.  Shared memory is sequentially
consistent (each labelled step is one atomic access); `counter += 1` is
non-atomic, so it is two steps (read, then write of read-value + 1).
A thread inside `lock()`'s wait loop re-loads `_now_serving` until the
loaded value equals its ticket; re-loads that observe a non-matching
value do not change shared state, so the model keeps only the final,
matching load (the `enter` step, enabled exactly when the `uint32_t`
image of `_now_serving` equals the ticket's).
-/

namespace sys

/-- Program counter of one client thread; `k` is the number of loop
iterations it still has to complete (decremented at its `unlock`),
`t` the unbounded ghost ticket, `r` the value read from the counter. -/
inductive TPc
  | ready (k : Nat)
  | waiting (t k : Nat)
  | entered (t k : Nat)
  | gotRead (t r k : Nat)
  | unlocking (t k : Nat)
deriving DecidableEq, Repr

/-- Ghost ticket currently held by a thread at this program counter. -/
@[simp] def ticketOf : TPc → Option Nat
  | .ready _ => none
  | .waiting t _ => some t
  | .entered t _ => some t
  | .gotRead t _ _ => some t
  | .unlocking t _ => some t

/-- Remaining loop iterations (the current one included while it runs). -/
@[simp] def rem : TPc → Nat
  | .ready k => k
  | .waiting _ k => k
  | .entered _ k => k
  | .gotRead _ _ k => k
  | .unlocking _ k => k

/-- Whether the thread is inside its critical section
(`lock()` returned, matching `unlock()` not yet performed). -/
@[simp] def inCrit : TPc → Bool
  | .entered _ _ => true
  | .gotRead _ _ _ => true
  | .unlocking _ _ => true
  | .ready _ => false
  | .waiting _ _ => false

/-- Whether the thread has done its write and only has `unlock()` left. -/
@[simp] def isUnl : TPc → Bool
  | .unlocking _ _ => true
  | .ready _ => false
  | .waiting _ _ => false
  | .entered _ _ => false
  | .gotRead _ _ _ => false

/-- Global state: the shared `ticket_lock` counters (unbounded ghost
values, machine value `% W`), the shared client counter, and every
thread's program counter. -/
@[ext]
structure Sys where
  next_ticket : Nat
  now_serving : Nat
  counter : Nat
  ts : Nat → TPc

/-- One atomic step of thread `i`; `none` when thread `i` has no enabled
step (it is done, or blocked in the wait loop). The five step kinds:
fetch-add of `_next_ticket` (start of `lock()`), the load of
`_now_serving` that observes the matching value (end of `lock()`), the
read of `counter`, the write of `counter`, and `unlock()`'s fetch-add of
`_now_serving`. -/
def step (s : Sys) (i : Nat) : Option Sys :=
  match s.ts i with
  | .ready 0 => none
  | .ready (k + 1) =>
      some { s with next_ticket := s.next_ticket + 1,
                    ts := Function.update s.ts i (.waiting s.next_ticket (k + 1)) }
  | .waiting t k =>
      if t % W = s.now_serving % W then
        some { s with ts := Function.update s.ts i (.entered t k) }
      else
        none
  | .entered t k =>
      some { s with ts := Function.update s.ts i (.gotRead t s.counter k) }
  | .gotRead t r k =>
      some { s with counter := r + 1,
                    ts := Function.update s.ts i (.unlocking t k) }
  | .unlocking t k =>
      some { s with now_serving := s.now_serving + 1,
                    ts := Function.update s.ts i (.ready (k - 1)) }

/-- Initial state for `n` threads of `K` iterations each. -/
def init (n K : Nat) : Sys :=
  ⟨0, 0, 0, fun i => if i < n then .ready K else .ready 0⟩

/-- Run a schedule (list of thread indices, each performing its unique
enabled step); `none` if any scheduled step is not enabled. -/
def runSched : Sys → List Nat → Option Sys
  | s, [] => some s
  | s, i :: rest => (step s i).bind (runSched · rest)

/-- All `n` threads have completed all their iterations. -/
def allDone (n : Nat) (s : Sys) : Prop :=
  ∀ i, i < n → s.ts i = .ready 0

/-- No two distinct threads are simultaneously inside their critical
sections. -/
def mutexOK (s : Sys) : Prop :=
  ∀ i j, i ≠ j → inCrit (s.ts i) = true → inCrit (s.ts j) = true → False

/-- The FIFO property of a state: a thread inside its critical section
never holds a (ghost) ticket issued later than the ticket of a thread
still waiting — entry order is ticket-issue order, and a waiter's
predecessors have all completed their critical sections. -/
def fifoOK (s : Sys) : Prop :=
  ∀ i j ti k tj, s.ts i = .waiting ti k → ticketOf (s.ts j) = some tj →
    inCrit (s.ts j) = true → tj < ti

/-!
Concrete schedule witnessing that `2 ^ 32 + 1` simultaneous callers break
the lock: the ghost tickets `0` and `W` have the same `uint32_t` image, so
the threads holding them can both be inside the critical section.  The
schedule below completes a full run (every thread performs one iteration)
whose final counter is `1` instead of `W + 1`: thread `W` reads the counter
early, all other threads run their entire iterations, then thread `W`
writes back its stale value.
-/

/-- State after the first `m` fetch-add steps of an `n = W + 1`, `K = 1`
run: threads `0, ..., m - 1` hold ghost tickets `0, ..., m - 1`. -/
def stA (m : Nat) : Sys :=
  ⟨m, 0, 0, fun i => if i < m then .waiting i 1 else if i < W + 1 then .ready 1 else .ready 0⟩

/-- State after all `W + 1` fetches and thread `W`'s fast-path entry:
thread `W` (ghost ticket `W`, machine image `0`) is inside the critical
section while thread `0` (ghost ticket `0`) is still waiting. -/
def stB : Sys :=
  ⟨W + 1, 0, 0, fun i => if i = W then .entered W 1 else if i < W + 1 then .waiting i 1 else .ready 0⟩

/-- Pipeline state: thread `W` has read counter value `0` and is parked
before its write; threads `< v` have completed, thread `v` is next to be
served (`now_serving = v`), and the counter holds `v` increments. -/
def stC (v : Nat) : Sys :=
  ⟨W + 1, v, v, fun i =>
    if i = W then .gotRead W 0 1
    else if i < v then .ready 0
    else if i < W then .waiting i 1
    else .ready 0⟩

/-- Final state of the broken run: all `W + 1` threads completed one
iteration, but the counter holds `1`. -/
def stFinal : Sys := ⟨W + 1, W + 1, 1, fun _ => .ready 0⟩

/-- One pipeline block per thread `v`: enter, read, write, unlock. -/
def blocksSched : Nat → Nat → List Nat
  | _, 0 => []
  | v, m + 1 => v :: v :: v :: v :: blocksSched (v + 1) m

/-- Intermediate pipeline states: thread `v` after its enter, read,
write and unlock steps respectively. -/
def stD1 (v : Nat) : Sys := ⟨W + 1, v, v, Function.update (stC v).ts v (.entered v 1)⟩

def stD2 (v : Nat) : Sys := ⟨W + 1, v, v, Function.update (stD1 v).ts v (.gotRead v v 1)⟩

def stD3 (v : Nat) : Sys :=
  ⟨W + 1, v, v + 1, Function.update (stD2 v).ts v (.unlocking v 1)⟩

def stD4 (v : Nat) : Sys :=
  ⟨W + 1, v + 1, v + 1, Function.update (stD3 v).ts v (.ready 0)⟩

/-- The complete broken schedule for `n = W + 1`, `K = 1`. -/
def bigSched : List Nat :=
  List.range (W + 1) ++ ([W, W, 0, 0, 0, 0] ++ (blocksSched 1 (W - 1) ++ [W, W]))

/-- Inductive invariant of the client system: outstanding ghost tickets
are exactly the interval `[now_serving, next_ticket)`, held by pairwise
distinct threads; a thread in its critical section holds exactly the
ghost ticket `now_serving`; the value a thread has read from the shared
counter is still current; the counter equals the number of completed
increments; `now_serving` counts the finished iterations. -/
structure Inv (n K : Nat) (s : sys.Sys) : Prop where
  pad : ∀ i, n ≤ i → s.ts i = .ready 0
  le : s.now_serving ≤ s.next_ticket
  tk_lb : ∀ i t, sys.ticketOf (s.ts i) = some t → s.now_serving ≤ t
  tk_ub : ∀ i t, sys.ticketOf (s.ts i) = some t → t < s.next_ticket
  inj : ∀ i j t, sys.ticketOf (s.ts i) = some t → sys.ticketOf (s.ts j) = some t → i = j
  surj : ∀ v, s.now_serving ≤ v → v < s.next_ticket → ∃ i, sys.ticketOf (s.ts i) = some v
  crit : ∀ i, sys.inCrit (s.ts i) = true → sys.ticketOf (s.ts i) = some s.now_serving
  readv : ∀ i t r k, s.ts i = .gotRead t r k → r = s.counter
  cnt0 : (∀ i, sys.isUnl (s.ts i) = false) → s.counter = s.now_serving
  cnt1 : ∀ i, sys.isUnl (s.ts i) = true → s.counter = s.now_serving + 1
  served : s.now_serving = ∑ j ∈ Finset.range n, (K - sys.rem (s.ts j))
  rem_le : ∀ i, sys.rem (s.ts i) ≤ K
  rem_pos : ∀ i t, sys.ticketOf (s.ts i) = some t → 1 ≤ sys.rem (s.ts i)

theorem inv_init (n K : Nat) : Inv n K (init n K) := by
  refine ⟨?_, ?_, ?_, ?_, ?_, ?_, ?_, ?_, ?_, ?_, ?_, ?_, ?_⟩
  · intro i hi
    simp [init, Nat.not_lt.mpr hi]
  · simp [init]
  · intro i t ht
    by_cases h : i < n <;> simp [init, h] at ht
  · intro i t ht
    by_cases h : i < n <;> simp [init, h] at ht
  · intro i j t hti htj
    by_cases h : i < n <;> simp [init, h] at hti
  · intro v _ hv2
    simp [init] at hv2
  · intro i hi
    by_cases h : i < n <;> simp [init, h] at hi
  · intro i t r k hik
    by_cases h : i < n <;> simp [init, h] at hik
  · intro _
    simp [init]
  · intro i hi
    by_cases h : i < n <;> simp [init, h] at hi
  · symm
    apply Finset.sum_eq_zero
    intro j hj
    rw [Finset.mem_range] at hj
    simp [init, hj]
  · intro i
    by_cases h : i < n <;> simp [init, h]
  · intro i t ht
    by_cases h : i < n <;> simp [init, h] at ht

/-- Every thread holding a ticket is one of the `n` real threads. -/
theorem holder_lt (n K : Nat) (s : Sys) (h : Inv n K s) (i t : Nat)
    (ht : ticketOf (s.ts i) = some t) : i < n := by
  by_contra hge
  rw [h.pad i (Nat.le_of_not_lt hge)] at ht
  simp at ht

/-- At most `n` ghost tickets are outstanding at any time. -/
theorem inv_gap (n K : Nat) (s : Sys) (h : Inv n K s) :
    s.next_ticket ≤ s.now_serving + n := by
  have hall : ∀ v, ∃ i, (s.now_serving ≤ v ∧ v < s.next_ticket) →
      ticketOf (s.ts i) = some v := by
    intro v
    by_cases hv : s.now_serving ≤ v ∧ v < s.next_ticket
    · obtain ⟨i, hi⟩ := h.surj v hv.1 hv.2
      exact ⟨i, fun _ => hi⟩
    · exact ⟨0, fun hc => absurd hc hv⟩
  choose f hf using hall
  have hcard : (Finset.Ico s.now_serving s.next_ticket).card ≤ (Finset.range n).card := by
    apply Finset.card_le_card_of_injOn f
    · intro v hv
      rw [Finset.mem_Ico] at hv
      rw [Finset.mem_range]
      exact holder_lt n K s h (f v) v (hf v hv)
    · intro v1 hv1 v2 hv2 hfe
      rw [Finset.mem_coe, Finset.mem_Ico] at hv1 hv2
      have h1 := hf v1 hv1
      have h2 := hf v2 hv2
      rw [hfe] at h1
      rw [h1] at h2
      exact Option.some.inj h2
  rw [Nat.card_Ico, Finset.card_range] at hcard
  omega

/-- With at most `W` threads, a waiter whose ticket matches `now_serving`
as a `uint32_t` holds exactly the ghost ticket `now_serving`. -/
theorem ticket_exact (n K : Nat) (s : Sys) (h : Inv n K s) (hW : n ≤ W)
    (i t : Nat) (ht : ticketOf (s.ts i) = some t)
    (hmod : t % W = s.now_serving % W) : t = s.now_serving := by
  have hlb := h.tk_lb i t ht
  have hub := h.tk_ub i t ht
  have hgap := inv_gap n K s h
  have hdvd : W ∣ t - s.now_serving :=
    (Nat.modEq_iff_dvd' hlb).mp (Nat.ModEq.symm hmod)
  have hlt : t - s.now_serving < W := by omega
  have : t - s.now_serving = 0 := Nat.eq_zero_of_dvd_of_lt hdvd hlt
  omega

/-- Mutual exclusion follows from the invariant. -/
theorem inv_mutex (n K : Nat) (s : Sys) (h : Inv n K s) : mutexOK s := by
  intro i j hne hi hj
  have hti := h.crit i hi
  have htj := h.crit j hj
  exact hne (h.inj i j s.now_serving hti htj)

theorem crit_unique (n K : Nat) (s : Sys) (h : Inv n K s) {i j : Nat}
    (hi : inCrit (s.ts i) = true) (hj : inCrit (s.ts j) = true) : i = j :=
  h.inj i j s.now_serving (h.crit i hi) (h.crit j hj)

theorem isUnl_inCrit {p : TPc} (hp : isUnl p = true) : inCrit p = true := by
  cases p <;> simp_all

theorem sum_swap_one (F G : Nat → Nat) (i n : Nat) (hi : i < n)
    (hFG : ∀ j, j ≠ i → F j = G j) :
    (∑ j ∈ Finset.range n, F j) + G i = (∑ j ∈ Finset.range n, G j) + F i := by
  have hmem : i ∈ Finset.range n := Finset.mem_range.mpr hi
  rw [← Finset.add_sum_erase _ F hmem, ← Finset.add_sum_erase _ G hmem,
      Finset.sum_congr rfl (fun j hj => hFG j (Finset.ne_of_mem_erase hj))]
  ring

theorem sum_comp_update (f : Nat → TPc) (g : TPc → Nat) (i n : Nat) (hi : i < n)
    (x : TPc) :
    (∑ j ∈ Finset.range n, g (Function.update f i x j)) + g (f i)
      = (∑ j ∈ Finset.range n, g (f j)) + g x := by
  have h0 := sum_swap_one (fun j => g (Function.update f i x j)) (fun j => g (f j))
    i n hi (fun j hj => by simp only; rw [Function.update_noteq hj])
  simp only [Function.update_same] at h0
  exact h0

/-- A thread whose program counter is not `ready 0` is a real thread. -/
theorem pc_lt (n K : Nat) (s : Sys) (h : Inv n K s) (i : Nat)
    (hne : s.ts i ≠ .ready 0) : i < n := by
  by_contra hge
  exact hne (h.pad i (Nat.le_of_not_lt hge))

/-- Invariant transfer for a step that leaves both lock counters and the
shared counter unchanged and only rewrites thread `i`'s program counter,
preserving its ticket and remaining-iteration count. -/
theorem inv_same_counters (n K : Nat) (s : Sys) (i : Nat) (newpc : TPc)
    (h : Inv n K s) (hin : i < n)
    (htk : ticketOf newpc = ticketOf (s.ts i))
    (hrm : rem newpc = rem (s.ts i))
    (hcr : inCrit newpc = true → ticketOf newpc = some s.now_serving)
    (hrd : ∀ t r k, newpc = .gotRead t r k → r = s.counter)
    (hun : isUnl newpc = false)
    (hunold : isUnl (s.ts i) = false) :
    Inv n K { s with ts := Function.update s.ts i newpc } := by
  have hptk : ∀ j, ticketOf (Function.update s.ts i newpc j) = ticketOf (s.ts j) := by
    intro j
    by_cases hj : j = i
    · subst hj
      rw [Function.update_same, htk]
    · rw [Function.update_noteq hj]
  have hprm : ∀ j, rem (Function.update s.ts i newpc j) = rem (s.ts j) := by
    intro j
    by_cases hj : j = i
    · subst hj
      rw [Function.update_same, hrm]
    · rw [Function.update_noteq hj]
  refine ⟨?_, ?_, ?_, ?_, ?_, ?_, ?_, ?_, ?_, ?_, ?_, ?_, ?_⟩
  · intro j hj
    have hne : j ≠ i := by omega
    dsimp only
    rw [Function.update_noteq hne]
    exact h.pad j hj
  · exact h.le
  · intro j t ht
    dsimp only at ht ⊢
    rw [hptk j] at ht
    exact h.tk_lb j t ht
  · intro j t ht
    dsimp only at ht ⊢
    rw [hptk j] at ht
    exact h.tk_ub j t ht
  · intro j j2 t htj htj2
    dsimp only at htj htj2
    rw [hptk j] at htj
    rw [hptk j2] at htj2
    exact h.inj j j2 t htj htj2
  · intro v hv1 hv2
    dsimp only at hv1 hv2 ⊢
    obtain ⟨j, hj⟩ := h.surj v hv1 hv2
    exact ⟨j, by rw [hptk j]; exact hj⟩
  · intro j hcrit
    dsimp only at hcrit ⊢
    by_cases hj : j = i
    · subst hj
      rw [Function.update_same] at hcrit ⊢
      exact hcr hcrit
    · rw [Function.update_noteq hj] at hcrit ⊢
      exact h.crit j hcrit
  · intro j t r k hj
    dsimp only at hj ⊢
    by_cases hje : j = i
    · subst hje
      rw [Function.update_same] at hj
      exact hrd t r k hj
    · rw [Function.update_noteq hje] at hj
      exact h.readv j t r k hj
  · intro hall
    dsimp only at hall ⊢
    apply h.cnt0
    intro j
    by_cases hj : j = i
    · rw [hj]
      exact hunold
    · have := hall j
      rw [Function.update_noteq hj] at this
      exact this
  · intro j hj
    dsimp only at hj ⊢
    by_cases hje : j = i
    · subst hje
      rw [Function.update_same] at hj
      rw [hun] at hj
      cases hj
    · rw [Function.update_noteq hje] at hj
      exact h.cnt1 j hj
  · dsimp only
    rw [h.served]
    refine Finset.sum_congr rfl fun j _ => ?_
    rw [hprm j]
  · intro j
    dsimp only
    rw [hprm j]
    exact h.rem_le j
  · intro j t ht
    dsimp only at ht ⊢
    rw [hptk j] at ht
    rw [hprm j]
    exact h.rem_pos j t ht

theorem inv_enter (n K : Nat) (s : Sys) (i t k : Nat) (h : Inv n K s) (hW : n ≤ W)
    (hpc : s.ts i = .waiting t k) (hg : t % W = s.now_serving % W) :
    Inv n K { s with ts := Function.update s.ts i (.entered t k) } := by
  have hti : ticketOf (s.ts i) = some t := by rw [hpc]; rfl
  have htns := ticket_exact n K s h hW i t hti hg
  refine inv_same_counters n K s i (.entered t k) h
    (pc_lt n K s h i (by rw [hpc]; intro hc; cases hc)) ?_ ?_ ?_ ?_ rfl ?_
  · rw [hpc]
    rfl
  · rw [hpc]
    rfl
  · intro _
    rw [htns]
    rfl
  · intro t2 r2 k2 hc
    cases hc
  · rw [hpc]
    rfl

theorem inv_read (n K : Nat) (s : Sys) (i t k : Nat) (h : Inv n K s)
    (hpc : s.ts i = .entered t k) :
    Inv n K { s with ts := Function.update s.ts i (.gotRead t s.counter k) } := by
  have hcrit : inCrit (s.ts i) = true := by rw [hpc]; rfl
  have hns := h.crit i hcrit
  rw [hpc] at hns
  refine inv_same_counters n K s i (.gotRead t s.counter k) h
    (pc_lt n K s h i (by rw [hpc]; intro hc; cases hc)) ?_ ?_ ?_ ?_ rfl ?_
  · rw [hpc]
    rfl
  · rw [hpc]
    rfl
  · intro _
    exact hns
  · intro t2 r2 k2 hc
    cases hc
    rfl
  · rw [hpc]
    rfl

theorem inv_fetch (n K : Nat) (s : Sys) (i k : Nat) (h : Inv n K s)
    (hpc : s.ts i = .ready (k + 1)) :
    Inv n K { s with next_ticket := s.next_ticket + 1,
                     ts := Function.update s.ts i (.waiting s.next_ticket (k + 1)) } := by
  have hin : i < n := pc_lt n K s h i (by rw [hpc]; intro hc; cases hc)
  refine ⟨?_, ?_, ?_, ?_, ?_, ?_, ?_, ?_, ?_, ?_, ?_, ?_, ?_⟩
  · intro j hj
    have hne : j ≠ i := by omega
    dsimp only
    rw [Function.update_noteq hne]
    exact h.pad j hj
  · dsimp only
    exact Nat.le_succ_of_le h.le
  · intro j t ht
    dsimp only at ht ⊢
    by_cases hj : j = i
    · subst hj
      rw [Function.update_same] at ht
      have := h.le
      simp at ht
      omega
    · rw [Function.update_noteq hj] at ht
      exact h.tk_lb j t ht
  · intro j t ht
    dsimp only at ht ⊢
    by_cases hj : j = i
    · subst hj
      rw [Function.update_same] at ht
      simp at ht
      omega
    · rw [Function.update_noteq hj] at ht
      have := h.tk_ub j t ht
      omega
  · intro j j2 t htj htj2
    dsimp only at htj htj2
    by_cases hj : j = i <;> by_cases hj2 : j2 = i
    · rw [hj, hj2]
    · subst hj
      rw [Function.update_same] at htj
      rw [Function.update_noteq hj2] at htj2
      simp at htj
      subst htj
      exact absurd (h.tk_ub j2 _ htj2) (by omega)
    · subst hj2
      rw [Function.update_same] at htj2
      rw [Function.update_noteq hj] at htj
      simp at htj2
      subst htj2
      exact absurd (h.tk_ub j _ htj) (by omega)
    · rw [Function.update_noteq hj] at htj
      rw [Function.update_noteq hj2] at htj2
      exact h.inj j j2 t htj htj2
  · intro v hv1 hv2
    dsimp only at hv1 hv2 ⊢
    by_cases hvn : v = s.next_ticket
    · refine ⟨i, ?_⟩
      rw [Function.update_same]
      simp [hvn]
    · obtain ⟨j, hj⟩ := h.surj v hv1 (by omega)
      have hne : j ≠ i := by
        intro hc
        rw [hc, hpc] at hj
        simp at hj
      refine ⟨j, ?_⟩
      rw [Function.update_noteq hne]
      exact hj
  · intro j hcr
    dsimp only at hcr ⊢
    by_cases hj : j = i
    · subst hj
      rw [Function.update_same] at hcr
      simp at hcr
    · rw [Function.update_noteq hj] at hcr ⊢
      exact h.crit j hcr
  · intro j t r k2 hj
    dsimp only at hj ⊢
    by_cases hje : j = i
    · subst hje
      rw [Function.update_same] at hj
      cases hj
    · rw [Function.update_noteq hje] at hj
      exact h.readv j t r k2 hj
  · intro hall
    dsimp only at hall ⊢
    apply h.cnt0
    intro j
    by_cases hj : j = i
    · rw [hj, hpc]
      rfl
    · have := hall j
      rw [Function.update_noteq hj] at this
      exact this
  · intro j hj
    dsimp only at hj ⊢
    by_cases hje : j = i
    · subst hje
      rw [Function.update_same] at hj
      simp at hj
    · rw [Function.update_noteq hje] at hj
      exact h.cnt1 j hj
  · dsimp only
    rw [h.served]
    apply Finset.sum_congr rfl
    intro j _
    by_cases hj : j = i
    · subst hj
      rw [Function.update_same, hpc]
      rfl
    · rw [Function.update_noteq hj]
  · intro j
    dsimp only
    by_cases hj : j = i
    · subst hj
      rw [Function.update_same]
      have := h.rem_le j
      rw [hpc] at this
      simpa using this
    · rw [Function.update_noteq hj]
      exact h.rem_le j
  · intro j t ht
    dsimp only at ht ⊢
    by_cases hj : j = i
    · subst hj
      rw [Function.update_same] at ht ⊢
      simp
    · rw [Function.update_noteq hj] at ht ⊢
      exact h.rem_pos j t ht

theorem inv_write (n K : Nat) (s : Sys) (i t r k : Nat) (h : Inv n K s)
    (hpc : s.ts i = .gotRead t r k) :
    Inv n K { s with counter := r + 1,
                     ts := Function.update s.ts i (.unlocking t k) } := by
  have hin : i < n := pc_lt n K s h i (by rw [hpc]; intro hc; cases hc)
  have hcr_i : inCrit (s.ts i) = true := by rw [hpc]; rfl
  have hti : ticketOf (s.ts i) = some t := by rw [hpc]; rfl
  have hns : t = s.now_serving := by
    have := h.crit i hcr_i
    rw [hti] at this
    exact Option.some.inj this
  have hrc : r = s.counter := h.readv i t r k hpc
  have hnounl : ∀ j, isUnl (s.ts j) = false := by
    intro j
    cases hB : isUnl (s.ts j) with
    | false => rfl
    | true =>
      have hj : j = i := crit_unique n K s h (isUnl_inCrit hB) hcr_i
      rw [hj, hpc] at hB
      cases hB
  have hcnt : s.counter = s.now_serving := h.cnt0 hnounl
  have hptk : ∀ j, ticketOf (Function.update s.ts i (.unlocking t k) j)
      = ticketOf (s.ts j) := by
    intro j
    by_cases hj : j = i
    · subst hj
      rw [Function.update_same, hti]
      rfl
    · rw [Function.update_noteq hj]
  have hprm : ∀ j, rem (Function.update s.ts i (.unlocking t k) j) = rem (s.ts j) := by
    intro j
    by_cases hj : j = i
    · subst hj
      rw [Function.update_same, hpc]
      rfl
    · rw [Function.update_noteq hj]
  refine ⟨?_, ?_, ?_, ?_, ?_, ?_, ?_, ?_, ?_, ?_, ?_, ?_, ?_⟩
  · intro j hj
    have hne : j ≠ i := by omega
    dsimp only
    rw [Function.update_noteq hne]
    exact h.pad j hj
  · exact h.le
  · intro j t2 ht2
    dsimp only at ht2 ⊢
    rw [hptk j] at ht2
    exact h.tk_lb j t2 ht2
  · intro j t2 ht2
    dsimp only at ht2 ⊢
    rw [hptk j] at ht2
    exact h.tk_ub j t2 ht2
  · intro j j2 t2 htj htj2
    dsimp only at htj htj2
    rw [hptk j] at htj
    rw [hptk j2] at htj2
    exact h.inj j j2 t2 htj htj2
  · intro v hv1 hv2
    dsimp only at hv1 hv2 ⊢
    obtain ⟨j, hj⟩ := h.surj v hv1 hv2
    exact ⟨j, by rw [hptk j]; exact hj⟩
  · intro j hcrit
    dsimp only at hcrit ⊢
    by_cases hj : j = i
    · subst hj
      rw [Function.update_same] at hcrit ⊢
      rw [hns]
      rfl
    · rw [Function.update_noteq hj] at hcrit ⊢
      exact h.crit j hcrit
  · intro j t2 r2 k2 hj
    dsimp only at hj ⊢
    by_cases hje : j = i
    · subst hje
      rw [Function.update_same] at hj
      cases hj
    · rw [Function.update_noteq hje] at hj
      have hcrj : inCrit (s.ts j) = true := by rw [hj]; rfl
      exact absurd (crit_unique n K s h hcrj hcr_i) hje
  · intro hall
    dsimp only at hall ⊢
    have := hall i
    rw [Function.update_same] at this
    cases this
  · intro j _
    dsimp only
    rw [hrc, hcnt]
  · dsimp only
    rw [h.served]
    refine Finset.sum_congr rfl fun j _ => ?_
    rw [hprm j]
  · intro j
    dsimp only
    rw [hprm j]
    exact h.rem_le j
  · intro j t2 ht2
    dsimp only at ht2 ⊢
    rw [hptk j] at ht2
    rw [hprm j]
    exact h.rem_pos j t2 ht2

theorem inv_unlock (n K : Nat) (s : Sys) (i t k : Nat) (h : Inv n K s)
    (hpc : s.ts i = .unlocking t k) :
    Inv n K { s with now_serving := s.now_serving + 1,
                     ts := Function.update s.ts i (.ready (k - 1)) } := by
  have hin : i < n := pc_lt n K s h i (by rw [hpc]; intro hc; cases hc)
  have hcr_i : inCrit (s.ts i) = true := by rw [hpc]; rfl
  have hti : ticketOf (s.ts i) = some t := by rw [hpc]; rfl
  have hns : t = s.now_serving := by
    have := h.crit i hcr_i
    rw [hti] at this
    exact Option.some.inj this
  have hk1 : 1 ≤ k := by
    have := h.rem_pos i t hti
    rw [hpc] at this
    simpa using this
  have hkK : k ≤ K := by
    have := h.rem_le i
    rw [hpc] at this
    simpa using this
  have hcnt : s.counter = s.now_serving + 1 := h.cnt1 i (by rw [hpc]; rfl)
  have honly : ∀ j, j ≠ i → inCrit (s.ts j) = false := by
    intro j hne
    cases hB : inCrit (s.ts j) with
    | false => rfl
    | true => exact absurd (crit_unique n K s h hB hcr_i) hne
  refine ⟨?_, ?_, ?_, ?_, ?_, ?_, ?_, ?_, ?_, ?_, ?_, ?_, ?_⟩
  · intro j hj
    have hne : j ≠ i := by omega
    dsimp only
    rw [Function.update_noteq hne]
    exact h.pad j hj
  · dsimp only
    have := h.tk_ub i t hti
    omega
  · intro j t2 ht2
    dsimp only at ht2 ⊢
    by_cases hj : j = i
    · subst hj
      rw [Function.update_same] at ht2
      cases ht2
    · rw [Function.update_noteq hj] at ht2
      have hlb := h.tk_lb j t2 ht2
      rcases eq_or_lt_of_le hlb with heq | hlt
      · exfalso
        have : ticketOf (s.ts i) = some t2 := by
          rw [hti, hns, heq]
        exact hj (h.inj j i t2 ht2 this)
      · omega
  · intro j t2 ht2
    dsimp only at ht2 ⊢
    by_cases hj : j = i
    · subst hj
      rw [Function.update_same] at ht2
      cases ht2
    · rw [Function.update_noteq hj] at ht2
      exact h.tk_ub j t2 ht2
  · intro j j2 t2 htj htj2
    dsimp only at htj htj2
    by_cases hj : j = i
    · subst hj
      rw [Function.update_same] at htj
      cases htj
    · by_cases hj2 : j2 = i
      · subst hj2
        rw [Function.update_same] at htj2
        cases htj2
      · rw [Function.update_noteq hj] at htj
        rw [Function.update_noteq hj2] at htj2
        exact h.inj j j2 t2 htj htj2
  · intro v hv1 hv2
    dsimp only at hv1 hv2 ⊢
    obtain ⟨j, hj⟩ := h.surj v (by omega) hv2
    have hne : j ≠ i := by
      intro hc
      rw [hc, hti] at hj
      have : t = v := Option.some.inj hj
      omega
    refine ⟨j, ?_⟩
    rw [Function.update_noteq hne]
    exact hj
  · intro j hcrit
    dsimp only at hcrit ⊢
    by_cases hj : j = i
    · subst hj
      rw [Function.update_same] at hcrit
      cases hcrit
    · rw [Function.update_noteq hj] at hcrit
      rw [honly j hj] at hcrit
      cases hcrit
  · intro j t2 r2 k2 hj
    dsimp only at hj ⊢
    by_cases hje : j = i
    · subst hje
      rw [Function.update_same] at hj
      cases hj
    · rw [Function.update_noteq hje] at hj
      exact h.readv j t2 r2 k2 hj
  · intro _
    dsimp only
    exact hcnt
  · intro j hj
    dsimp only at hj ⊢
    by_cases hje : j = i
    · subst hje
      rw [Function.update_same] at hj
      cases hj
    · rw [Function.update_noteq hje] at hj
      have hcrj : inCrit (s.ts j) = true := isUnl_inCrit hj
      rw [honly j hje] at hcrj
      cases hcrj
  · dsimp only
    rw [h.served]
    have hsum := sum_comp_update s.ts (fun p => K - rem p) i n hin (.ready (k - 1))
    rw [hpc] at hsum
    have e1 : rem (TPc.unlocking t k) = k := rfl
    have e2 : rem (TPc.ready (k - 1)) = k - 1 := rfl
    rw [e1, e2] at hsum
    omega
  · intro j
    dsimp only
    by_cases hj : j = i
    · subst hj
      rw [Function.update_same]
      simp only [rem]
      omega
    · rw [Function.update_noteq hj]
      exact h.rem_le j
  · intro j t2 ht2
    dsimp only at ht2 ⊢
    by_cases hj : j = i
    · subst hj
      rw [Function.update_same] at ht2
      cases ht2
    · rw [Function.update_noteq hj] at ht2
      rw [Function.update_noteq hj]
      exact h.rem_pos j t2 ht2

/-- The inductive invariant is preserved by every enabled step, for at
most `W` threads. -/
theorem inv_step (n K : Nat) (hW : n ≤ W) (s s2 : Sys) (i : Nat) (h : Inv n K s)
    (hs : step s i = some s2) : Inv n K s2 := by
  cases hpc : s.ts i with
  | ready k =>
    cases k with
    | zero =>
      simp [step, hpc] at hs
    | succ k =>
      simp only [step, hpc, Option.some.injEq] at hs
      subst hs
      exact inv_fetch n K s i k h hpc
  | waiting t k =>
    by_cases hg : t % W = s.now_serving % W
    · simp only [step, hpc, if_pos hg, Option.some.injEq] at hs
      subst hs
      exact inv_enter n K s i t k h hW hpc hg
    · simp [step, hpc, if_neg hg] at hs
  | entered t k =>
    simp only [step, hpc, Option.some.injEq] at hs
    subst hs
    exact inv_read n K s i t k h hpc
  | gotRead t r k =>
    simp only [step, hpc, Option.some.injEq] at hs
    subst hs
    exact inv_write n K s i t r k h hpc
  | unlocking t k =>
    simp only [step, hpc, Option.some.injEq] at hs
    subst hs
    exact inv_unlock n K s i t k h hpc

/-- The invariant holds after running any schedule from an invariant
state. -/
theorem inv_run (n K : Nat) (hW : n ≤ W) (s : Sys) (h : Inv n K s)
    (sched : List Nat) (s2 : Sys) (hr : runSched s sched = some s2) :
    Inv n K s2 := by
  induction sched generalizing s with
  | nil =>
    simp only [runSched, Option.some.injEq] at hr
    rw [← hr]
    exact h
  | cons i rest ih =>
    simp only [runSched] at hr
    cases hstep : step s i with
    | none =>
      rw [hstep] at hr
      simp at hr
    | some s1 =>
      rw [hstep] at hr
      simp only [Option.some_bind] at hr
      exact ih s1 (inv_step n K hW s s1 i h hstep) hr

/-- Every state reached from the initial state satisfies the invariant. -/
theorem inv_reach (n K : Nat) (hW : n ≤ W) (sched : List Nat) (s2 : Sys)
    (hr : runSched (init n K) sched = some s2) : Inv n K s2 :=
  inv_run n K hW (init n K) (inv_init n K) sched s2 hr

/-- In a completed run the counter equals `n * K`: no thread is between
its write and its unlock, so the counter equals `now_serving`, which
counts the `n * K` finished iterations. -/
theorem final_count (n K : Nat) (s : Sys) (h : Inv n K s) (hd : allDone n s) :
    s.counter = n * K := by
  have hnounl : ∀ j, isUnl (s.ts j) = false := by
    intro j
    by_cases hj : j < n
    · rw [hd j hj]
      rfl
    · rw [h.pad j (Nat.le_of_not_lt hj)]
      rfl
  have h1 : s.counter = s.now_serving := h.cnt0 hnounl
  have h3 : ∀ j ∈ Finset.range n, K - rem (s.ts j) = K := by
    intro j hj
    rw [Finset.mem_range] at hj
    rw [hd j hj]
    simp
  rw [h1, h.served, Finset.sum_congr rfl h3, Finset.sum_const, Finset.card_range,
    smul_eq_mul]

theorem runSched_append (s : Sys) (a b : List Nat) :
    runSched s (a ++ b) = (runSched s a).bind (fun s1 => runSched s1 b) := by
  induction a generalizing s with
  | nil => simp [runSched]
  | cons i rest ih =>
    simp only [List.cons_append, runSched]
    cases step s i with
    | none => simp
    | some s1 => simp [ih s1]

/-- The fetch step of thread `m` in the fetch phase. -/
theorem stepA (m : Nat) (hm : m ≤ W) : step (stA m) m = some (stA (m + 1)) := by
  have h1 : ¬ (m < m) := Nat.lt_irrefl m
  have h2 : m < W + 1 := by omega
  have hts : (stA m).ts m = .ready 1 := by simp [stA, h1, h2]
  have hnext : (stA m).next_ticket = m := rfl
  simp only [step, hts]
  refine congrArg some ?_
  ext j
  · exact congrArg (· + 1) hnext
  · rfl
  · rfl
  · dsimp only
    by_cases hj : j = m
    · subst hj
      rw [Function.update_same, hnext]
      simp [stA]
    · rw [Function.update_noteq hj]
      by_cases hjm : j < m
      · simp [stA, hjm, Nat.lt_succ_of_lt hjm]
      · have hjm2 : ¬ (j < m + 1) := by omega
        simp [stA, hjm, hjm2]

/-- The whole fetch phase: all `W + 1` threads obtain their tickets. -/
theorem phase1 (m : Nat) (hm : m ≤ W + 1) :
    runSched (stA 0) (List.range m) = some (stA m) := by
  induction m with
  | zero => rfl
  | succ m ih =>
    rw [List.range_succ, runSched_append, ih (by omega)]
    show runSched (stA m) [m] = some (stA (m + 1))
    simp only [runSched, stepA m (by omega), Option.some_bind]

theorem init_eq_stA0 : init (W + 1) 1 = stA 0 := by
  ext j
  · rfl
  · rfl
  · rfl
  · simp [init, stA]

/-- Phase 2, computed: thread `W` enters (fast path, `W % W = 0`) and
reads, then thread `0` enters, reads, writes and unlocks. -/
theorem phase2_raw :
    runSched (stA (W + 1)) [W, W, 0, 0, 0, 0]
      = some ⟨W + 1, 1, 1,
          Function.update (Function.update (Function.update (Function.update
            (Function.update (Function.update (stA (W + 1)).ts
              W (.entered W 1)) W (.gotRead W 0 1)) 0 (.entered 0 1))
              0 (.gotRead 0 0 1)) 0 (.unlocking 0 1)) 0 (.ready 0)⟩ := rfl

theorem phase2 : runSched (stA (W + 1)) [W, W, 0, 0, 0, 0] = some (stC 1) := by
  rw [phase2_raw]
  refine congrArg some ?_
  have hW0 : (0 : Nat) ≠ W := by decide
  ext j
  · rfl
  · rfl
  · rfl
  · dsimp only
    by_cases hj0 : j = 0
    · subst hj0
      rw [Function.update_same]
      simp [stC, hW0]
    · by_cases hjW : j = W
      · subst hjW
        rw [Function.update_noteq hj0, Function.update_noteq hj0,
          Function.update_noteq hj0, Function.update_noteq hj0,
          Function.update_same]
        simp [stC]
      · rw [Function.update_noteq hj0, Function.update_noteq hj0,
          Function.update_noteq hj0, Function.update_noteq hj0,
          Function.update_noteq hjW, Function.update_noteq hjW]
        by_cases hlt : j < W
        · have h1 : j < W + 1 := by omega
          have h2 : ¬ (j < 1) := by omega
          simp [stA, stC, hjW, hlt, h1, h2, hj0]
        · have h1 : ¬ (j < W + 1) := by omega
          have h2 : ¬ (j < 1) := by omega
          simp [stA, stC, hjW, h1, h2, hlt, hj0]

theorem runSched_cons (s s1 s2 : Sys) (i : Nat) (rest : List Nat)
    (h1 : step s i = some s1) (h2 : runSched s1 rest = some s2) :
    runSched s (i :: rest) = some s2 := by
  simp [runSched, h1, h2]

/-- One pipeline block: thread `v` is served (enter, read, write, unlock)
while thread `W` stays parked before its stale write. -/
theorem block (v : Nat) (hv1 : 1 ≤ v) (hvW : v < W) :
    runSched (stC v) [v, v, v, v] = some (stC (v + 1)) := by
  have hne : v ≠ W := Nat.ne_of_lt hvW
  have hnlt : ¬ (v < v) := Nat.lt_irrefl v
  have hts0 : (stC v).ts v = .waiting v 1 := by simp [stC, hne, hnlt, hvW]
  have h1 : step (stC v) v = some (stD1 v) := by
    simp only [step, hts0]
    rw [if_pos (show v % W = (stC v).now_serving % W from rfl)]
    rfl
  have hts1 : (stD1 v).ts v = .entered v 1 := by
    simp [stD1]
  have h2 : step (stD1 v) v = some (stD2 v) := by
    simp only [step, hts1]
    rfl
  have hts2 : (stD2 v).ts v = .gotRead v v 1 := by
    simp [stD2]
  have h3 : step (stD2 v) v = some (stD3 v) := by
    simp only [step, hts2]
    rfl
  have hts3 : (stD3 v).ts v = .unlocking v 1 := by
    simp [stD3]
  have h4 : step (stD3 v) v = some (stD4 v) := by
    simp only [step, hts3]
    rfl
  have hfin : stD4 v = stC (v + 1) := by
    ext j
    · rfl
    · rfl
    · rfl
    · show Function.update (stD3 v).ts v (.ready 0) j = (stC (v + 1)).ts j
      by_cases hj : j = v
      · subst hj
        rw [Function.update_same]
        have h5 : j ≠ W := hne
        have h6 : j < j + 1 := Nat.lt_succ_self j
        simp [stC, h5, h6]
      · rw [show (stD3 v).ts = Function.update (stD2 v).ts v (.unlocking v 1) from rfl,
          show (stD2 v).ts = Function.update (stD1 v).ts v (.gotRead v v 1) from rfl,
          show (stD1 v).ts = Function.update (stC v).ts v (.entered v 1) from rfl,
          Function.update_noteq hj, Function.update_noteq hj,
          Function.update_noteq hj, Function.update_noteq hj]
        rcases Nat.lt_trichotomy j v with hlt | heq | hgt
        · have e1 : j ≠ W := by omega
          have e2 : j < v + 1 := by omega
          simp [stC, e1, e2, hlt]
        · exact absurd heq hj
        · by_cases hjW : j = W
          · subst hjW
            simp [stC]
          · have e1 : ¬ (j < v) := by omega
            have e2 : ¬ (j < v + 1) := by omega
            simp [stC, hjW, e1, e2]
  refine runSched_cons _ _ _ _ _ h1 (runSched_cons _ _ _ _ _ h2
    (runSched_cons _ _ _ _ _ h3 (runSched_cons _ _ _ _ _ h4 ?_)))
  rw [show runSched (stD4 v) [] = some (stD4 v) from rfl, hfin]

/-- The whole pipeline phase: threads `v, v + 1, ..., v + m - 1` are
served in ticket order. -/
theorem phase3 (m : Nat) : ∀ v, 1 ≤ v → v + m ≤ W →
    runSched (stC v) (blocksSched v m) = some (stC (v + m)) := by
  induction m with
  | zero =>
    intro v _ _
    simp [blocksSched, runSched]
  | succ m ih =>
    intro v hv hm
    have hb : blocksSched v (m + 1) = [v, v, v, v] ++ blocksSched (v + 1) m := rfl
    rw [hb, runSched_append, block v hv (by omega), Option.some_bind,
      ih (v + 1) (by omega) (by omega)]
    have e1 : v + 1 + m = v + (m + 1) := by omega
    rw [e1]

/-- Phase 4, computed: thread `W` finally performs its write (of the
stale value `0 + 1`) and unlocks. -/
theorem phase4_raw :
    runSched (stC W) [W, W]
      = some ⟨W + 1, W + 1, 1,
          Function.update (Function.update (stC W).ts W (.unlocking W 1)) W
            (.ready 0)⟩ := rfl

theorem phase4 : runSched (stC W) [W, W] = some stFinal := by
  rw [phase4_raw]
  refine congrArg some ?_
  ext j
  · rfl
  · rfl
  · rfl
  · dsimp only
    by_cases hj : j = W
    · subst hj
      rw [Function.update_same]
      rfl
    · rw [Function.update_noteq hj, Function.update_noteq hj]
      by_cases hlt : j < W
      · simp [stC, stFinal, hj, hlt]
      · simp [stC, stFinal, hj, hlt]

/-- The complete broken run: every thread finishes its single iteration
and the final counter is `1`. -/
theorem bigSched_runs : runSched (init (W + 1) 1) bigSched = some stFinal := by
  have hW1 : (1 : Nat) ≤ W := by decide
  simp only [bigSched]
  rw [init_eq_stA0, runSched_append, phase1 (W + 1) (Nat.le_refl _), Option.some_bind,
    runSched_append, phase2, Option.some_bind, runSched_append,
    phase3 (W - 1) 1 (Nat.le_refl 1) (by omega), Option.some_bind]
  have e1 : 1 + (W - 1) = W := by omega
  rw [e1]
  exact phase4

/-- Thread `W`'s fast-path entry while thread `0` still waits. -/
theorem stepB : step (stA (W + 1)) W = some stB := by
  have hlt : W < W + 1 := Nat.lt_succ_self W
  have hnlt : ¬ (W < W) := Nat.lt_irrefl W
  have hts : (stA (W + 1)).ts W = .waiting W 1 := by simp [stA, hlt, hnlt]
  simp only [step, hts]
  rw [if_pos (show W % W = (stA (W + 1)).now_serving % W from by
    simp [stA, Nat.mod_self])]
  refine congrArg some ?_
  ext j
  · rfl
  · rfl
  · rfl
  · dsimp only
    by_cases hj : j = W
    · subst hj
      rw [Function.update_same]
      simp [stB]
    · rw [Function.update_noteq hj]
      by_cases hlt2 : j < W + 1
      · have e1 : j < W := by omega
        simp [stA, stB, hj, hlt2, e1]
      · simp [stA, stB, hj, hlt2]

theorem reachB : runSched (init (W + 1) 1) (List.range (W + 1) ++ [W]) = some stB := by
  rw [init_eq_stA0, runSched_append, phase1 (W + 1) (Nat.le_refl _), Option.some_bind]
  exact runSched_cons _ _ _ _ _ stepB rfl

end sys

section sanity

example : til.recursive_ticket_lock.lockN 1 2 til.recursive_ticket_lock.init =
    some ⟨⟨1, 0⟩, 1, 2⟩ := by decide

example :
    (til.recursive_ticket_lock.suspend 1
      (⟨⟨1, 0⟩, 1, 2⟩ : til.recursive_ticket_lock)).2 = ⟨1, 2⟩ := by decide

example : til.recursive_ticket_lock_suspension.destroy ⟨1, 2⟩ ⟨⟨1, 1⟩, 0, 0⟩ =
    some ⟨⟨2, 1⟩, 1, 2⟩ := by decide

example : (sys.runSched (sys.init 2 1) [0, 0, 0, 0, 0, 1, 1, 1, 1, 1]).map
    (fun s => (s.next_ticket, s.now_serving, s.counter)) = some (2, 2, 2) := rfl

end sanity

/-- `_lockSlow`'s loop returns exactly the index of the first observed
`_now_serving` value whose `uint32_t` image equals the ticket's. -/
theorem lockSlowRun_eq_some_iff (t : Nat) (obs : List Nat) (m : Nat) :
    til.ticket_lock.lockSlowRun t obs = some m ↔
      ((∃ c, obs[m]? = some c ∧ c % W = t % W)
        ∧ ∀ j, j < m → ∀ c, obs[j]? = some c → c % W ≠ t % W) := by
  induction obs generalizing m with
  | nil => simp [til.ticket_lock.lockSlowRun]
  | cons c rest ih =>
    by_cases hc : c % W = t % W
    · cases m with
      | zero =>
        simp only [til.ticket_lock.lockSlowRun, if_pos hc]
        simp [hc]
      | succ m =>
        simp only [til.ticket_lock.lockSlowRun, if_pos hc]
        constructor
        · intro h
          have : (0 : Nat) = m + 1 := Option.some.inj h
          omega
        · rintro ⟨_, hall⟩
          exact absurd hc (hall 0 (Nat.succ_pos m) c List.getElem?_cons_zero)
    · cases m with
      | zero =>
        simp only [til.ticket_lock.lockSlowRun, if_neg hc]
        constructor
        · intro h
          rcases hr : til.ticket_lock.lockSlowRun t rest with _ | k <;>
            rw [hr] at h <;> simp at h
        · rintro ⟨⟨c2, hg, hm⟩, _⟩
          rw [List.getElem?_cons_zero] at hg
          rw [← Option.some.inj hg] at hm
          exact absurd hm hc
      | succ m =>
        have hmap : (til.ticket_lock.lockSlowRun t rest).map (· + 1) = some (m + 1)
            ↔ til.ticket_lock.lockSlowRun t rest = some m := by
          rcases hr : til.ticket_lock.lockSlowRun t rest with _ | k <;> simp [hr]
        rw [show til.ticket_lock.lockSlowRun t (c :: rest)
            = (til.ticket_lock.lockSlowRun t rest).map (· + 1) from by
          simp [til.ticket_lock.lockSlowRun, if_neg hc], hmap, ih m]
        constructor
        · rintro ⟨hex, hall⟩
          refine ⟨by simpa using hex, ?_⟩
          intro j hj c2 hg
          cases j with
          | zero =>
            rw [List.getElem?_cons_zero] at hg
            rw [← Option.some.inj hg]
            exact hc
          | succ j =>
            rw [List.getElem?_cons_succ] at hg
            exact hall j (by omega) c2 hg
        · rintro ⟨hex, hall⟩
          refine ⟨by simpa using hex, ?_⟩
          intro j hj c2 hg
          exact hall (j + 1) (by omega) c2 (by simpa using hg)

/-- `_lockSlow`'s loop never returns exactly when no observed value ever
matches the ticket. -/
theorem lockSlowRun_eq_none_iff (t : Nat) (obs : List Nat) :
    til.ticket_lock.lockSlowRun t obs = none ↔ ∀ c ∈ obs, c % W ≠ t % W := by
  induction obs with
  | nil => simp [til.ticket_lock.lockSlowRun]
  | cons c rest ih =>
    by_cases hc : c % W = t % W
    · simp only [til.ticket_lock.lockSlowRun, if_pos hc]
      constructor
      · intro h
        cases h
      · intro h
        exact absurd hc (h c (List.mem_cons_self c rest))
    · simp only [til.ticket_lock.lockSlowRun, if_neg hc]
      rw [Option.map_eq_none', ih]
      constructor
      · intro h c2 hc2
        rcases List.mem_cons.mp hc2 with rfl | hmem
        · exact hc
        · exact h c2 hmem
      · intro h c2 hmem
        exact h c2 (List.mem_cons_of_mem c hmem)

/-- Claim C3: `lock()` first fetch-and-increments `_next_ticket`, taking
the previous value as its ticket and leaving `_now_serving` alone; if the
ticket equals the loaded `_now_serving` (as `uint32_t`) it returns at once
with no waiting; otherwise it waits and re-loads until the first observed
value matching the ticket, and returns then (one wait per re-load; no
return if no observation ever matches); `unlock()` increments
`_now_serving` by exactly one and changes nothing else.  (The `relaxed`,
`acquire` and `release` orderings and the `atomic_notify_one` wake are
carried by the sequentially consistent embedding: re-loads are driven by
the observation list `obs`.) -/
theorem C3_lock_algorithm (tl : til.ticket_lock) (obs : List Nat) :
    ((til.ticket_lock.fetch_add tl).1 = tl._next_ticket
      ∧ (til.ticket_lock.fetch_add tl).2._next_ticket = tl._next_ticket + 1
      ∧ (til.ticket_lock.fetch_add tl).2._now_serving = tl._now_serving)
    ∧ (tl._next_ticket % W = tl._now_serving % W →
        til.ticket_lock.lockRun tl obs = some (tl._next_ticket, 0))
    ∧ (tl._next_ticket % W ≠ tl._now_serving % W →
        (∀ m, til.ticket_lock.lockRun tl obs = some (tl._next_ticket, m + 1) ↔
          ((∃ c, obs[m]? = some c ∧ c % W = tl._next_ticket % W)
            ∧ ∀ j, j < m → ∀ c, obs[j]? = some c → c % W ≠ tl._next_ticket % W))
        ∧ (til.ticket_lock.lockRun tl obs = none ↔
            ∀ c ∈ obs, c % W ≠ tl._next_ticket % W))
    ∧ ((til.ticket_lock.unlock tl)._now_serving = tl._now_serving + 1
      ∧ (til.ticket_lock.unlock tl)._next_ticket = tl._next_ticket) := by
  refine ⟨⟨rfl, rfl, rfl⟩, ?_, ?_, rfl, rfl⟩
  · intro hfast
    simp [til.ticket_lock.lockRun, til.ticket_lock.fetch_add, hfast]
  · intro hslow
    constructor
    · intro m
      rw [show til.ticket_lock.lockRun tl obs
          = (til.ticket_lock.lockSlowRun tl._next_ticket obs).map
              (fun m => (tl._next_ticket, m + 1)) from by
        simp [til.ticket_lock.lockRun, til.ticket_lock.fetch_add, hslow]]
      rw [← lockSlowRun_eq_some_iff tl._next_ticket obs m]
      rcases hr : til.ticket_lock.lockSlowRun tl._next_ticket obs with _ | k <;>
        simp [hr]
    · rw [show til.ticket_lock.lockRun tl obs
          = (til.ticket_lock.lockSlowRun tl._next_ticket obs).map
              (fun m => (tl._next_ticket, m + 1)) from by
        simp [til.ticket_lock.lockRun, til.ticket_lock.fetch_add, hslow]]
      rw [Option.map_eq_none', lockSlowRun_eq_none_iff]

/-- Witness for C3: concrete fast-path, slow-path and unlock runs. -/
theorem C3_witness :
    ((til.ticket_lock.fetch_add ⟨1, 0⟩).1 = 1
      ∧ (1 : Nat) % W ≠ 0 % W
      ∧ til.ticket_lock.lockRun ⟨1, 0⟩ [0, 1] = some (1, 2)
      ∧ til.ticket_lock.lockRun ⟨1, 0⟩ [0, 3] = none)
    ∧ ((0 : Nat) % W = 0 % W ∧ til.ticket_lock.lockRun ⟨0, 0⟩ [] = some (0, 0))
    ∧ (til.ticket_lock.unlock ⟨1, 0⟩)._now_serving = 1 := by
  have hne : (1 : Nat) % W ≠ 0 % W := by decide
  have h := C3_lock_algorithm ⟨1, 0⟩ [0, 1]
  have h3 := C3_lock_algorithm ⟨1, 0⟩ [0, 3]
  have h0 := C3_lock_algorithm ⟨0, 0⟩ []
  have hrun1 : til.ticket_lock.lockRun ⟨1, 0⟩ [0, 1] = some (1, 2) := by
    refine ((h.2.2.1 hne).1 1).mpr ⟨⟨1, rfl, by decide⟩, ?_⟩
    intro j hj c hc
    have hj0 : j = 0 := by omega
    subst hj0
    have : c = 0 := (Option.some.inj hc).symm
    subst this
    decide
  have hrun3 : til.ticket_lock.lockRun ⟨1, 0⟩ [0, 3] = none := by
    refine (h3.2.2.1 hne).2.mpr ?_
    intro c hc
    rcases List.mem_cons.mp hc with rfl | hc2
    · decide
    · rcases List.mem_cons.mp hc2 with rfl | hc3
      · decide
      · cases hc3
  exact ⟨⟨h.1.1, hne, hrun1, hrun3⟩, ⟨rfl, h0.2.1 rfl⟩, h.2.2.2.1⟩

/-- A re-entrant `lock()` call by the owner: no inner-lock interaction,
`_recursion` incremented mod `2^32`. -/
theorem lock_owned (id : Nat) (l : til.ticket_lock) (r : Nat) :
    til.recursive_ticket_lock.lock id ⟨l, id, r⟩ = some ⟨l, id, (r + 1) % W⟩ := by
  simp [til.recursive_ticket_lock.lock]

theorem lockN_owned (id : Nat) (l : til.ticket_lock) (m : Nat) : ∀ r, r < W →
    til.recursive_ticket_lock.lockN id m ⟨l, id, r⟩ = some ⟨l, id, (r + m) % W⟩ := by
  induction m with
  | zero =>
    intro r hr
    simp [til.recursive_ticket_lock.lockN, Nat.mod_eq_of_lt hr]
  | succ m ih =>
    intro r hr
    have hWpos : 0 < W := by decide
    show (til.recursive_ticket_lock.lock id ⟨l, id, r⟩).bind
        (til.recursive_ticket_lock.lockN id m) = _
    rw [lock_owned, Option.some_bind, ih ((r + 1) % W) (Nat.mod_lt _ hWpos),
      Nat.mod_add_mod]
    have : r + 1 + m = r + (m + 1) := by omega
    rw [this]

/-- The first `lock()` call on a fresh lock acquires the inner ticket
lock and sets owner and depth. -/
theorem lock_init (id : Nat) (hid : id ≠ 0) :
    til.recursive_ticket_lock.lock id til.recursive_ticket_lock.init
      = some ⟨⟨1, 0⟩, id, 1⟩ := by
  have h1 : (1 : Nat) % W = 1 := by decide
  simp [til.recursive_ticket_lock.lock, til.recursive_ticket_lock.init,
    til.ticket_lock.lock, til.ticket_lock.init, Ne.symm hid, h1]

theorem lockN_init (id k : Nat) (hid : id ≠ 0) (hk : 1 ≤ k) :
    til.recursive_ticket_lock.lockN id k til.recursive_ticket_lock.init
      = some ⟨⟨1, 0⟩, id, k % W⟩ := by
  cases k with
  | zero => omega
  | succ k =>
    show (til.recursive_ticket_lock.lock id til.recursive_ticket_lock.init).bind
        (til.recursive_ticket_lock.lockN id k) = _
    rw [lock_init id hid, Option.some_bind, lockN_owned id ⟨1, 0⟩ k 1 (by decide)]
    have : 1 + k = k + 1 := by omega
    rw [this]

/-- `unlock()` at depth at least 2 only decrements the counter. -/
theorem unlock_owned (id : Nat) (l : til.ticket_lock) (r : Nat) (h1 : 2 ≤ r) :
    til.recursive_ticket_lock.unlock ⟨l, id, r⟩ = ⟨l, id, r - 1⟩ := by
  have h0 : ¬ (r = 0) := by omega
  have h2 : ¬ (r - 1 = 0) := by omega
  simp [til.recursive_ticket_lock.unlock, h0, h2]

/-- `unlock()` at depth 1 releases the inner lock and clears the owner. -/
theorem unlock_last (id : Nat) (l : til.ticket_lock) :
    til.recursive_ticket_lock.unlock ⟨l, id, 1⟩ = ⟨l.unlock, 0, 0⟩ := by
  simp [til.recursive_ticket_lock.unlock]

/-- `k` matching `unlock()` calls from depth `k` fully release the lock. -/
theorem unlockN_full (id : Nat) (l : til.ticket_lock) (k : Nat) (h1 : 1 ≤ k)
    (hk : k < W) :
    til.recursive_ticket_lock.unlockN k ⟨l, id, k⟩ = ⟨l.unlock, 0, 0⟩ := by
  induction k with
  | zero => omega
  | succ k ih =>
    rcases Nat.eq_zero_or_pos k with h0 | hpos
    · subst h0
      simp only [til.recursive_ticket_lock.unlockN]
      simp only [Nat.zero_add]
      rw [unlock_last id l]
    · simp only [til.recursive_ticket_lock.unlockN]
      rw [unlock_owned id l (k + 1) (by omega), Nat.add_sub_cancel]
      exact ih (by omega) (by omega)

/-- Two successive values of a `uint32_t` counter never have the same
machine image. -/
theorem succ_mod_ne (a : Nat) : (a + 1) % W ≠ a % W := by
  intro hmod
  have hdvd : W ∣ (a + 1) - a := (Nat.modEq_iff_dvd' (Nat.le_succ a)).mp hmod.symm
  have h1 : W ∣ 1 := by simpa using hdvd
  have h2 : W ≤ 1 := Nat.le_of_dvd Nat.one_pos h1
  have h3 : (1 : Nat) < W := by decide
  omega

theorem rinv_init : til.RInv (til.recursive_ticket_lock.init, []) := by
  refine ⟨?_, ?_, ?_, ?_, ?_⟩
  · simp [til.recursive_ticket_lock.init]
  · show (0 : Nat) < W
    decide
  · intro _
    rfl
  · intro hc
    exact absurd rfl hc
  · intro tok htok
    cases htok

/-- Preservation of the contract invariant by every bounded step. -/
theorem rinv_step (c c2 : til.Config) (h : til.RInv c) (hs : til.BStep c c2) :
    til.RInv c2 := by
  have hW1 : (1 : Nat) < W := by decide
  cases hs with
  | lock id s s2 toks hid hidW hrec hlock =>
    have hiff : 0 < s._recursion ↔ s._owner ≠ 0 := h.iff0
    have hfree := h.free
    have hheld := h.held
    by_cases ho : s._owner ≠ id
    · simp only [til.recursive_ticket_lock.lock, if_pos ho] at hlock
      by_cases hf : s._lock._next_ticket % W = s._lock._now_serving % W
      · simp only [til.ticket_lock.lock, if_pos hf, Option.map_some'] at hlock
        have ho0 : s._owner = 0 := by
          by_contra hno
          rw [hheld hno] at hf
          exact succ_mod_ne _ hf
        have hr0 : s._recursion = 0 := by omega
        rw [← Option.some.inj hlock]
        refine ⟨?_, ?_, ?_, ?_, ?_⟩
        · show 0 < (s._recursion + 1) % W ↔ id ≠ 0
          rw [Nat.mod_eq_of_lt hrec]
          omega
        · show (s._recursion + 1) % W < W
          exact Nat.mod_lt _ (by omega)
        · intro hc
          exact absurd hc hid
        · intro _
          show s._lock._next_ticket + 1 = s._lock._now_serving + 1
          rw [hfree ho0]
        · exact h.toks
      · simp only [til.ticket_lock.lock, if_neg hf, Option.map_none'] at hlock
        cases hlock
    · simp only [til.recursive_ticket_lock.lock, if_neg ho] at hlock
      have hoid : s._owner = id := not_not.mp ho
      have howner : s._owner ≠ 0 := by omega
      rw [← Option.some.inj hlock]
      refine ⟨?_, ?_, ?_, ?_, ?_⟩
      · show 0 < (s._recursion + 1) % W ↔ s._owner ≠ 0
        rw [Nat.mod_eq_of_lt hrec]
        omega
      · show (s._recursion + 1) % W < W
        exact Nat.mod_lt _ (by omega)
      · intro hc
        exact absurd hc howner
      · intro _
        exact hheld howner
      · exact h.toks
  | unlock s toks ho =>
    obtain ⟨l, ow, rec⟩ := s
    have hiff : 0 < rec ↔ ow ≠ 0 := h.iff0
    have hrec_lt : rec < W := h.rec_lt
    have hheld : ow ≠ 0 → l._next_ticket = l._now_serving + 1 := h.held
    have hrpos : 0 < rec := hiff.mpr ho
    by_cases h1 : rec = 1
    · subst h1
      rw [unlock_last ow l]
      refine ⟨?_, ?_, ?_, ?_, ?_⟩
      · simp
      · show (0 : Nat) < W
        decide
      · intro _
        show l._next_ticket = l._now_serving + 1
        exact hheld ho
      · intro hc
        exact absurd rfl hc
      · exact h.toks
    · rw [unlock_owned ow l rec (by omega)]
      refine ⟨?_, ?_, ?_, ?_, ?_⟩
      · show 0 < rec - 1 ↔ ow ≠ 0
        omega
      · show rec - 1 < W
        omega
      · intro hc
        exact absurd hc ho
      · intro _
        exact hheld ho
      · exact h.toks
  | suspend id s toks hid hidW =>
    obtain ⟨l, ow, rec⟩ := s
    have hiff : 0 < rec ↔ ow ≠ 0 := h.iff0
    have hrec_lt : rec < W := h.rec_lt
    have hfree : ow = 0 → l._next_ticket = l._now_serving := h.free
    have hheld : ow ≠ 0 → l._next_ticket = l._now_serving + 1 := h.held
    by_cases ho : ow = id
    · rw [show til.recursive_ticket_lock.suspend id ⟨l, ow, rec⟩
          = (⟨l.unlock, 0, 0⟩, ⟨id, rec⟩) from by
        simp [til.recursive_ticket_lock.suspend, ho]]
      refine ⟨?_, ?_, ?_, ?_, ?_⟩
      · simp
      · show (0 : Nat) < W
        decide
      · intro _
        show l._next_ticket = l._now_serving + 1
        exact hheld (by omega)
      · intro hc
        exact absurd rfl hc
      · intro tok htok hto
        rcases List.mem_cons.mp htok with rfl | hmem
        · refine ⟨?_, hrec_lt⟩
          have : ow ≠ 0 := by omega
          exact hiff.mpr this
        · exact h.toks tok hmem hto
    · rw [show til.recursive_ticket_lock.suspend id ⟨l, ow, rec⟩
          = (⟨l, ow, rec⟩, ⟨0, 0⟩) from by
        simp [til.recursive_ticket_lock.suspend, ho]]
      refine ⟨hiff, hrec_lt, hfree, hheld, ?_⟩
      intro tok htok hto
      rcases List.mem_cons.mp htok with rfl | hmem
      · exact absurd rfl hto
      · exact h.toks tok hmem hto
  | destroy tok s s2 pre post hbound hdes =>
    obtain ⟨o, r⟩ := tok
    obtain ⟨l, ow, rec⟩ := s
    have hbound2 : rec + r < W := hbound
    have hiff : 0 < rec ↔ ow ≠ 0 := h.iff0
    have hrec_lt : rec < W := h.rec_lt
    have hfree : ow = 0 → l._next_ticket = l._now_serving := h.free
    have hheld : ow ≠ 0 → l._next_ticket = l._now_serving + 1 := h.held
    have hmemtok : (⟨o, r⟩ : til.recursive_ticket_lock_suspension)
        ∈ pre ++ ⟨o, r⟩ :: post :=
      List.mem_append.mpr (Or.inr (List.mem_cons_self _ _))
    have hsub : ∀ t2 ∈ pre ++ post, t2 ∈ pre ++ (⟨o, r⟩ : til.recursive_ticket_lock_suspension) :: post := by
      intro t2 ht2
      rcases List.mem_append.mp ht2 with hm | hm
      · exact List.mem_append.mpr (Or.inl hm)
      · exact List.mem_append.mpr (Or.inr (List.mem_cons_of_mem _ hm))
    by_cases ho : o = 0
    · subst ho
      simp only [til.recursive_ticket_lock_suspension.destroy] at hdes
      simp at hdes
      rw [← hdes]
      refine ⟨hiff, hrec_lt, hfree, hheld, ?_⟩
      intro t2 ht2
      exact h.toks t2 (hsub t2 ht2)
    · have htokr : 0 < r ∧ r < W := h.toks ⟨o, r⟩ hmemtok ho
      by_cases how : ow = o
      · rw [show til.recursive_ticket_lock_suspension.destroy ⟨o, r⟩ ⟨l, ow, rec⟩
            = some ⟨l, ow, (rec + r) % W⟩ from by
          simp [til.recursive_ticket_lock_suspension.destroy, ho, how]] at hdes
        rw [← Option.some.inj hdes]
        have hown : ow ≠ 0 := by omega
        refine ⟨?_, ?_, ?_, ?_, ?_⟩
        · show 0 < (rec + r) % W ↔ ow ≠ 0
          rw [Nat.mod_eq_of_lt hbound2]
          omega
        · show (rec + r) % W < W
          exact Nat.mod_lt _ (by omega)
        · intro hc
          exact absurd hc hown
        · intro _
          exact hheld hown
        · intro t2 ht2
          exact h.toks t2 (hsub t2 ht2)
      · rw [show til.recursive_ticket_lock_suspension.destroy ⟨o, r⟩ ⟨l, ow, rec⟩
            = (l.lock).map
                (fun l2 => ⟨l2, o, (rec + r) % W⟩) from by
          simp [til.recursive_ticket_lock_suspension.destroy, ho, how]] at hdes
        have how0 : ow = 0 := by
          by_contra hno
          have hf := hheld hno
          simp only [til.ticket_lock.lock] at hdes
          rw [hf] at hdes
          rw [if_neg (succ_mod_ne l._now_serving)] at hdes
          cases hdes
        have hr0 : rec = 0 := by omega
        have hf : l._next_ticket % W = l._now_serving % W := by
          rw [hfree how0]
        simp only [til.ticket_lock.lock, if_pos hf, Option.map_some'] at hdes
        rw [← Option.some.inj hdes]
        refine ⟨?_, ?_, ?_, ?_, ?_⟩
        · show 0 < (rec + r) % W ↔ o ≠ 0
          rw [Nat.mod_eq_of_lt hbound2]
          omega
        · show (rec + r) % W < W
          exact Nat.mod_lt _ (by omega)
        · intro hc
          exact absurd hc ho
        · intro _
          show l._next_ticket + 1 = l._now_serving + 1
          rw [hfree how0]
        · intro t2 ht2
          exact h.toks t2 (hsub t2 ht2)

/-- The invariant holds in every bounded contract-reachable configuration. -/
theorem rinv_breach (c : til.Config) (h : til.BReach c) : til.RInv c := by
  induction h with
  | refl => exact rinv_init
  | tail hab hbc ih => exact rinv_step _ _ ih hbc

/-- `2 ^ 32` nested `lock()` calls by thread 1 are contract-reachable and
wrap the recursion counter. -/
theorem creach_lockm (m : Nat) (h1 : 1 ≤ m) :
    til.CReach (⟨⟨1, 0⟩, 1, m % W⟩, []) := by
  induction m with
  | zero => omega
  | succ m ih =>
    rcases Nat.eq_zero_or_pos m with h0 | hpos
    · subst h0
      have hstep : til.CStep (til.recursive_ticket_lock.init, []) (⟨⟨1, 0⟩, 1, 1 % W⟩, []) := by
        have e : (1 : Nat) % W = 1 := by decide
        rw [e]
        exact til.CStep.lock 1 _ _ [] (by decide) (by decide) (lock_init 1 (by decide))
      exact Relation.ReflTransGen.single hstep
    · have hstep : til.CStep (⟨⟨1, 0⟩, 1, m % W⟩, []) (⟨⟨1, 0⟩, 1, (m + 1) % W⟩, []) := by
        have e : (m % W + 1) % W = (m + 1) % W := Nat.mod_add_mod m W 1
        rw [← e]
        exact til.CStep.lock 1 _ _ [] (by decide) (by decide) (lock_owned 1 ⟨1, 0⟩ (m % W))
      exact Relation.ReflTransGen.tail (ih hpos) hstep

/-- Claim C5, amended: in every configuration reachable from a fresh lock
by contract-respecting sequences of `lock()`, `unlock()`, `suspend()` and
token destruction in which no `uint32_t` recursion count ever wraps
(every nesting depth stays below `2 ^ 32`), `recursion > 0` holds exactly
when `owner ≠ 0`. -/
theorem C5_invariant (s : til.recursive_ticket_lock)
    (toks : List til.recursive_ticket_lock_suspension)
    (h : til.BReach (s, toks)) : 0 < s._recursion ↔ s._owner ≠ 0 :=
  (rinv_breach (s, toks) h).iff0

/-- Witness for C5: the configuration after one `lock()` by thread 1. -/
theorem C5_witness :
    til.BReach ((⟨⟨1, 0⟩, 1, 1⟩ : til.recursive_ticket_lock), [])
    ∧ (0 < (⟨⟨1, 0⟩, 1, 1⟩ : til.recursive_ticket_lock)._recursion
        ↔ (⟨⟨1, 0⟩, 1, 1⟩ : til.recursive_ticket_lock)._owner ≠ 0) := by
  have hstep : til.BStep (til.recursive_ticket_lock.init, [])
      ((⟨⟨1, 0⟩, 1, 1⟩ : til.recursive_ticket_lock), []) :=
    til.BStep.lock 1 _ _ [] (by decide) (by decide) (by decide)
      (lock_init 1 (by decide))
  have hreach : til.BReach ((⟨⟨1, 0⟩, 1, 1⟩ : til.recursive_ticket_lock), []) :=
    Relation.ReflTransGen.single hstep
  exact ⟨hreach, C5_invariant ⟨⟨1, 0⟩, 1, 1⟩ [] hreach⟩

/-- Counterexample to C5 as stated (without the no-wrap bound): after
`2 ^ 32` contract-respecting nested `lock()` calls by thread 1 the
recursion counter has wrapped to 0 while the owner field is nonzero, so
the claimed invariant `recursion > 0 ↔ owner ≠ none` fails in a
contract-reachable state. -/
theorem C5_counterexample :
    til.CReach ((⟨⟨1, 0⟩, 1, 0⟩ : til.recursive_ticket_lock), [])
    ∧ (⟨⟨1, 0⟩, 1, 0⟩ : til.recursive_ticket_lock)._owner ≠ 0
    ∧ ¬ (0 < (⟨⟨1, 0⟩, 1, 0⟩ : til.recursive_ticket_lock)._recursion) := by
  have h := creach_lockm (2 ^ 32) (by decide)
  have e : (2 ^ 32 : Nat) % W = 0 := by decide
  rw [e] at h
  exact ⟨h, by decide, by decide⟩

/-- Claim C4, amended: a thread that has acquired a fresh
`recursive_ticket_lock` can re-lock any number of times without ever
blocking; for every `1 ≤ k < 2 ^ 32`, after `k` `lock()` calls the depth
is exactly `k`, and after `k` matching `unlock()` calls the lock reports
unlocked with depth 0.  (At `k = 2 ^ 32` the `uint32_t` recursion counter
wraps and `recursion_depth()` returns 0, not `k`.) -/
theorem C4_reentrancy (id : Nat) (hid : id ≠ 0) :
    (∀ k, 1 ≤ k →
      (til.recursive_ticket_lock.lockN id k til.recursive_ticket_lock.init).isSome
        = true)
    ∧ (∀ k, 1 ≤ k → k < W →
      til.recursive_ticket_lock.lockN id k til.recursive_ticket_lock.init
          = some ⟨⟨1, 0⟩, id, k⟩
        ∧ til.recursive_ticket_lock.recursion_depth id ⟨⟨1, 0⟩, id, k⟩ = k
        ∧ til.recursive_ticket_lock.is_locked id
            (til.recursive_ticket_lock.unlockN k ⟨⟨1, 0⟩, id, k⟩) = false
        ∧ til.recursive_ticket_lock.recursion_depth id
            (til.recursive_ticket_lock.unlockN k ⟨⟨1, 0⟩, id, k⟩) = 0) := by
  constructor
  · intro k hk
    rw [lockN_init id k hid hk]
    rfl
  · intro k hk hkW
    have hfor := lockN_init id k hid hk
    rw [Nat.mod_eq_of_lt hkW] at hfor
    have hun := unlockN_full id ⟨1, 0⟩ k hk hkW
    refine ⟨hfor, ?_, ?_, ?_⟩
    · simp [til.recursive_ticket_lock.recursion_depth,
        til.recursive_ticket_lock.is_locked]
    · rw [hun]
      simp [til.recursive_ticket_lock.is_locked, Ne.symm hid]
    · rw [hun]
      simp [til.recursive_ticket_lock.recursion_depth,
        til.recursive_ticket_lock.is_locked, Ne.symm hid]

/-- Witness for C4 at `id = 1`, `k = 3`. -/
theorem C4_witness :
    ((1 : Nat) ≠ 0 ∧ (1 : Nat) ≤ 3 ∧ 3 < W)
    ∧ til.recursive_ticket_lock.lockN 1 3 til.recursive_ticket_lock.init
        = some ⟨⟨1, 0⟩, 1, 3⟩
    ∧ til.recursive_ticket_lock.recursion_depth 1 ⟨⟨1, 0⟩, 1, 3⟩ = 3
    ∧ til.recursive_ticket_lock.is_locked 1
        (til.recursive_ticket_lock.unlockN 3 ⟨⟨1, 0⟩, 1, 3⟩) = false
    ∧ til.recursive_ticket_lock.recursion_depth 1
        (til.recursive_ticket_lock.unlockN 3 ⟨⟨1, 0⟩, 1, 3⟩) = 0 := by
  have h := (C4_reentrancy 1 (by decide)).2 3 (by decide) (by decide)
  exact ⟨⟨by decide, by decide, by decide⟩, h.1, h.2.1, h.2.2.1, h.2.2.2⟩

/-- Counterexample to C4 as stated (for every `k ≥ 1`): after
`2 ^ 32` nested `lock()` calls the `uint32_t` recursion counter has
wrapped to 0, so `recursion_depth()` reports 0 instead of `2 ^ 32`. -/
theorem C4_counterexample :
    til.recursive_ticket_lock.lockN 1 (2 ^ 32) til.recursive_ticket_lock.init
      = some ⟨⟨1, 0⟩, 1, 0⟩
    ∧ til.recursive_ticket_lock.recursion_depth 1 ⟨⟨1, 0⟩, 1, 0⟩ = 0
    ∧ (2 ^ 32 : Nat) ≠ 0 := by
  have h := lockN_init 1 (2 ^ 32) (by decide) (by decide)
  have e : (2 ^ 32 : Nat) % W = 0 := by decide
  rw [e] at h
  exact ⟨h, rfl, by decide⟩

/-- Claim C1, amended to at most `2 ^ 32` threads: in the interleaved
model of `N ≤ 2 ^ 32` threads each looping `lock(); counter += 1;
unlock();` `K` times on one `til::ticket_lock`, every reachable state has
non-overlapping critical sections, and every completed run ends with the
shared counter equal to `N * K`. -/
theorem C1_mutual_exclusion (n K : Nat) (hn : n ≤ W) (sched : List Nat)
    (s : sys.Sys) (hrun : sys.runSched (sys.init n K) sched = some s) :
    sys.mutexOK s ∧ (sys.allDone n s → s.counter = n * K) := by
  have hinv := sys.inv_reach n K hn sched s hrun
  exact ⟨sys.inv_mutex n K s hinv, fun hd => sys.final_count n K s hinv hd⟩

/-- Witness for C1: a complete two-thread, one-iteration run reaches a
state the theorem applies to, and its counter is `2 * 1`. -/
theorem C1_witness :
    (2 ≤ W ∧ (sys.runSched (sys.init 2 1) [0, 0, 0, 0, 0, 1, 1, 1, 1, 1]).isSome = true)
    ∧ (sys.runSched (sys.init 2 1) [0, 0, 0, 0, 0, 1, 1, 1, 1, 1]).map
        sys.Sys.counter = some (2 * 1) := by
  have hn : (2 : Nat) ≤ W := by decide
  have hsome : (sys.runSched (sys.init 2 1) [0, 0, 0, 0, 0, 1, 1, 1, 1, 1]).isSome
      = true := rfl
  refine ⟨⟨hn, hsome⟩, ?_⟩
  have hrun : sys.runSched (sys.init 2 1) [0, 0, 0, 0, 0, 1, 1, 1, 1, 1]
      = some ((sys.runSched (sys.init 2 1) [0, 0, 0, 0, 0, 1, 1, 1, 1, 1]).get hsome) :=
    (Option.some_get hsome).symm
  have hmain := C1_mutual_exclusion 2 1 hn [0, 0, 0, 0, 0, 1, 1, 1, 1, 1] _ hrun
  have hdone : sys.allDone 2
      ((sys.runSched (sys.init 2 1) [0, 0, 0, 0, 0, 1, 1, 1, 1, 1]).get hsome) := by
    intro i hi
    rcases i with _ | i
    · rfl
    · rcases i with _ | i
      · rfl
      · omega
  have hc := hmain.2 hdone
  rw [hrun]
  exact congrArg some hc

/-- Counterexample to C1 as stated (for any number of threads): with
`N = 2 ^ 32 + 1` threads and `K = 1`, the ghost tickets `0` and `2 ^ 32`
coincide as `uint32_t` values, and the exhibited schedule is a complete
run of all `N` threads whose final counter is `1`, not `N * 1`. -/
theorem C1_counterexample :
    sys.runSched (sys.init (W + 1) 1) sys.bigSched = some sys.stFinal
    ∧ sys.allDone (W + 1) sys.stFinal
    ∧ sys.stFinal.counter = 1
    ∧ (W + 1) * 1 ≠ 1 := by
  refine ⟨sys.bigSched_runs, ?_, rfl, by decide⟩
  intro i _
  rfl

/-- Claim C2, amended to at most `2 ^ 32` threads: a waiter is granted
entry exactly when the `uint32_t` value of `now_serving` equals its
ticket, and in every reachable state no thread is inside its critical
section while a thread holding an earlier-issued ticket is still waiting
(entry order is ticket-issue order; the earlier thread's unlock precedes
the later thread's lock-return). -/
theorem C2_fifo (n K : Nat) (hn : n ≤ W) (sched : List Nat) (s : sys.Sys)
    (hrun : sys.runSched (sys.init n K) sched = some s) :
    sys.fifoOK s
    ∧ (∀ i t k, s.ts i = .waiting t k →
        ((sys.step s i).isSome = true ↔ t % W = s.now_serving % W)) := by
  have hinv := sys.inv_reach n K hn sched s hrun
  constructor
  · intro i j ti k tj hwi htj hcrit
    have htns := hinv.crit j hcrit
    rw [htj] at htns
    have htjns : tj = s.now_serving := Option.some.inj htns
    have hti : sys.ticketOf (s.ts i) = some ti := by rw [hwi]; rfl
    have hlb := hinv.tk_lb i ti hti
    rcases Nat.lt_or_ge s.now_serving ti with hlt | hge
    · omega
    · have heq : ti = s.now_serving := by omega
      have hij : i = j := hinv.inj i j ti hti (by rw [htj, htjns, ← heq])
      rw [← hij, hwi] at hcrit
      simp at hcrit
  · intro i t k hw
    constructor
    · intro hs
      by_cases hg : t % W = s.now_serving % W
      · exact hg
      · rw [show sys.step s i = none by simp [sys.step, hw, hg]] at hs
        simp at hs
    · intro hg
      rw [show sys.step s i
          = some { s with ts := Function.update s.ts i (.entered t k) } by
        simp [sys.step, hw, hg]]
      rfl

/-- Witness for C2: the initial two-thread state is reachable and the
theorem's conclusions hold there. -/
theorem C2_witness :
    (2 ≤ W ∧ sys.runSched (sys.init 2 1) [] = some (sys.init 2 1))
    ∧ sys.fifoOK (sys.init 2 1) := by
  have hn : (2 : Nat) ≤ W := by decide
  have h2 : sys.runSched (sys.init 2 1) [] = some (sys.init 2 1) := rfl
  exact ⟨⟨hn, h2⟩, (C2_fifo 2 1 hn [] (sys.init 2 1) h2).1⟩

/-- Counterexample to C2 as stated (for every execution): with
`2 ^ 32 + 1` callers, after all tickets are issued, thread `2 ^ 32`
(whose ghost ticket `2 ^ 32` was issued last but reads as `uint32_t 0`)
enters the critical section by the fast path while thread `0` (ticket
issued first) is still waiting, violating FIFO order. -/
theorem C2_counterexample :
    sys.runSched (sys.init (W + 1) 1) (List.range (W + 1) ++ [W]) = some sys.stB
    ∧ sys.stB.ts 0 = .waiting 0 1
    ∧ sys.stB.ts W = .entered W 1
    ∧ ¬ sys.fifoOK sys.stB := by
  have hW0 : (0 : Nat) ≠ W := by decide
  have h0 : sys.stB.ts 0 = .waiting 0 1 := by
    have h1 : (0 : Nat) < W + 1 := by omega
    simp [sys.stB, hW0, h1]
  have hWt : sys.stB.ts W = .entered W 1 := by simp [sys.stB]
  refine ⟨sys.reachB, h0, hWt, ?_⟩
  intro hf
  have := hf 0 W 0 1 W h0 (by rw [hWt]; rfl) (by rw [hWt]; rfl)
  omega

/-- Claim C6: `suspend()` called by the owner at depth `d` captures
`(owner, d)`, zeroes `_owner` and `_recursion`, releases the inner ticket
lock exactly once (one `unlock()` of the inner `ticket_lock`), and returns
a token holding `(owner, d)`; called by a non-owner it returns a `(0, 0)`
token and changes no lock state, and destroying such a token is a no-op
that never blocks. -/
theorem C6_suspend (id : Nat) (hid : id ≠ 0) (s : til.recursive_ticket_lock) :
    (s._owner = id →
      til.recursive_ticket_lock.suspend id s
        = (⟨s._lock.unlock, 0, 0⟩, ⟨id, s._recursion⟩))
    ∧ (s._owner ≠ id →
      til.recursive_ticket_lock.suspend id s = (s, ⟨0, 0⟩)
      ∧ ∀ s2 : til.recursive_ticket_lock,
          til.recursive_ticket_lock_suspension.destroy ⟨0, 0⟩ s2 = some s2) := by
  constructor
  · intro ho
    simp [til.recursive_ticket_lock.suspend, ho]
  · intro ho
    refine ⟨?_, ?_⟩
    · simp [til.recursive_ticket_lock.suspend, ho]
    · intro s2
      simp [til.recursive_ticket_lock_suspension.destroy]

/-- Witness for C6 at thread id 1: the owner case from state
`⟨⟨1,0⟩, 1, 2⟩` and the non-owner case from the fresh lock. -/
theorem C6_witness :
    (((1 : Nat) ≠ 0)
      ∧ (⟨⟨1, 0⟩, 1, 2⟩ : til.recursive_ticket_lock)._owner = 1
      ∧ til.recursive_ticket_lock.init._owner ≠ 1)
    ∧ til.recursive_ticket_lock.suspend 1 ⟨⟨1, 0⟩, 1, 2⟩
        = (⟨⟨1, 1⟩, 0, 0⟩, ⟨1, 2⟩)
    ∧ til.recursive_ticket_lock.suspend 1 til.recursive_ticket_lock.init
        = (til.recursive_ticket_lock.init, ⟨0, 0⟩)
    ∧ til.recursive_ticket_lock_suspension.destroy ⟨0, 0⟩ ⟨⟨5, 3⟩, 2, 7⟩
        = some ⟨⟨5, 3⟩, 2, 7⟩ := by
  have h1 := (C6_suspend 1 (by decide) ⟨⟨1, 0⟩, 1, 2⟩).1 rfl
  have h2 := (C6_suspend 1 (by decide) til.recursive_ticket_lock.init).2 (by decide)
  exact ⟨⟨by decide, rfl, by decide⟩, h1, h2.1, h2.2 ⟨⟨5, 3⟩, 2, 7⟩⟩

/-- Claim C7: suspend/resume round trip.  From a held state (inner lock
acquired once: `_next_ticket = n + 1`, `_now_serving = n`; owner `id`,
depth `d` with `1 ≤ d < W`), `suspend()` fully releases, and immediately
destroying the returned token (no intervening lock activity) restores
owner `id` and depth exactly `d`: `is_locked()` is true and
`recursion_depth()` equals `d`. -/
theorem C7_roundtrip (id d n : Nat) (hid : id ≠ 0) (hd : 1 ≤ d) (hdW : d < W) :
    til.recursive_ticket_lock.suspend id ⟨⟨n + 1, n⟩, id, d⟩
      = (⟨⟨n + 1, n + 1⟩, 0, 0⟩, ⟨id, d⟩)
    ∧ til.recursive_ticket_lock_suspension.destroy ⟨id, d⟩ ⟨⟨n + 1, n + 1⟩, 0, 0⟩
      = some ⟨⟨n + 2, n + 1⟩, id, d⟩
    ∧ til.recursive_ticket_lock.is_locked id ⟨⟨n + 2, n + 1⟩, id, d⟩ = true
    ∧ til.recursive_ticket_lock.recursion_depth id ⟨⟨n + 2, n + 1⟩, id, d⟩ = d := by
  have hne : (0 : Nat) ≠ id := Ne.symm hid
  refine ⟨?_, ?_, ?_, ?_⟩
  · simp [til.recursive_ticket_lock.suspend, til.ticket_lock.unlock]
  · simp [til.recursive_ticket_lock_suspension.destroy, hid, hne,
      til.ticket_lock.lock, Nat.mod_eq_of_lt hdW]
  · simp [til.recursive_ticket_lock.is_locked]
  · simp [til.recursive_ticket_lock.recursion_depth, til.recursive_ticket_lock.is_locked]

/-- Witness for C7 at id 1, depth 2, fresh-held state (n = 0). -/
theorem C7_witness :
    (((1 : Nat) ≠ 0) ∧ (1 : Nat) ≤ 2 ∧ 2 < W)
    ∧ til.recursive_ticket_lock.suspend 1 ⟨⟨1, 0⟩, 1, 2⟩
        = (⟨⟨1, 1⟩, 0, 0⟩, ⟨1, 2⟩)
    ∧ til.recursive_ticket_lock_suspension.destroy ⟨1, 2⟩ ⟨⟨1, 1⟩, 0, 0⟩
        = some ⟨⟨2, 1⟩, 1, 2⟩
    ∧ til.recursive_ticket_lock.is_locked 1 ⟨⟨2, 1⟩, 1, 2⟩ = true
    ∧ til.recursive_ticket_lock.recursion_depth 1 ⟨⟨2, 1⟩, 1, 2⟩ = 2 := by
  have h := C7_roundtrip 1 2 0 (by decide) (by decide) (by decide)
  exact ⟨⟨by decide, by decide, by decide⟩, h.1, h.2.1, h.2.2.1, h.2.2.2⟩

/-- Claim C8: token restoration composes.  General conjuncts: destroying a
token `⟨id, r⟩` when the lock's owner already equals `id` only adds `r`
onto `_recursion` (uint32 addition, owner and inner lock untouched); when
the owner differs and the inner lock is free, the destructor reacquires the
inner lock once, stores the captured owner, and adds `r` onto the current
recursion.  Scenario: from a held state at depth 2, suspend, then one
balanced `lock()`/`unlock()` pair by the same thread inside the window;
destroying the token restores depth exactly 2 with `is_locked()` true. -/
theorem C8_token_compose (id r n : Nat) (hid : id ≠ 0) (s : til.recursive_ticket_lock) :
    (s._owner = id →
      til.recursive_ticket_lock_suspension.destroy ⟨id, r⟩ s
        = some ⟨s._lock, s._owner, (s._recursion + r) % W⟩)
    ∧ (s._owner ≠ id → s._lock._next_ticket % W = s._lock._now_serving % W →
      til.recursive_ticket_lock_suspension.destroy ⟨id, r⟩ s
        = some ⟨⟨s._lock._next_ticket + 1, s._lock._now_serving⟩, id,
            (s._recursion + r) % W⟩)
    ∧ (til.recursive_ticket_lock.suspend id ⟨⟨n + 1, n⟩, id, 2⟩).2 = ⟨id, 2⟩
    ∧ til.recursive_ticket_lock.lock id
        (til.recursive_ticket_lock.suspend id ⟨⟨n + 1, n⟩, id, 2⟩).1
        = some ⟨⟨n + 2, n + 1⟩, id, 1⟩
    ∧ til.recursive_ticket_lock.unlock ⟨⟨n + 2, n + 1⟩, id, 1⟩
        = ⟨⟨n + 2, n + 2⟩, 0, 0⟩
    ∧ til.recursive_ticket_lock_suspension.destroy ⟨id, 2⟩ ⟨⟨n + 2, n + 2⟩, 0, 0⟩
        = some ⟨⟨n + 3, n + 2⟩, id, 2⟩
    ∧ til.recursive_ticket_lock.recursion_depth id ⟨⟨n + 3, n + 2⟩, id, 2⟩ = 2 := by
  have hne : (0 : Nat) ≠ id := Ne.symm hid
  have e1 : (1 : Nat) % W = 1 := by decide
  have e2 : (2 : Nat) % W = 2 := by decide
  refine ⟨?_, ?_, ?_, ?_, ?_, ?_, ?_⟩
  · intro ho
    simp [til.recursive_ticket_lock_suspension.destroy, hid, ho]
  · intro ho hf
    simp [til.recursive_ticket_lock_suspension.destroy, hid, ho,
      til.ticket_lock.lock, hf]
  · simp [til.recursive_ticket_lock.suspend]
  · have hsus : (til.recursive_ticket_lock.suspend id ⟨⟨n + 1, n⟩, id, 2⟩).1
        = ⟨⟨n + 1, n + 1⟩, 0, 0⟩ := by
      simp [til.recursive_ticket_lock.suspend, til.ticket_lock.unlock]
    rw [hsus]
    simp [til.recursive_ticket_lock.lock, hne, til.ticket_lock.lock, e1]
  · exact unlock_last id ⟨n + 2, n + 1⟩
  · simp [til.recursive_ticket_lock_suspension.destroy, hid, hne,
      til.ticket_lock.lock, e2]
  · simp [til.recursive_ticket_lock.recursion_depth, til.recursive_ticket_lock.is_locked]

/-- Witness for C8 at id 1, captured recursion 5 (general conjuncts, from
state `⟨⟨7,4⟩, 1, 3⟩`) and the depth-2 scenario from n = 0. -/
theorem C8_witness :
    (((1 : Nat) ≠ 0)
      ∧ (⟨⟨7, 4⟩, 1, 3⟩ : til.recursive_ticket_lock)._owner = 1)
    ∧ til.recursive_ticket_lock_suspension.destroy ⟨1, 5⟩ ⟨⟨7, 4⟩, 1, 3⟩
        = some ⟨⟨7, 4⟩, 1, 8⟩
    ∧ til.recursive_ticket_lock.lock 1
        (til.recursive_ticket_lock.suspend 1 ⟨⟨1, 0⟩, 1, 2⟩).1
        = some ⟨⟨2, 1⟩, 1, 1⟩
    ∧ til.recursive_ticket_lock_suspension.destroy ⟨1, 2⟩ ⟨⟨2, 2⟩, 0, 0⟩
        = some ⟨⟨3, 2⟩, 1, 2⟩
    ∧ til.recursive_ticket_lock.recursion_depth 1 ⟨⟨3, 2⟩, 1, 2⟩ = 2 := by
  have h := C8_token_compose 1 5 0 (by decide) ⟨⟨7, 4⟩, 1, 3⟩
  have h1 : til.recursive_ticket_lock_suspension.destroy ⟨1, 5⟩ ⟨⟨7, 4⟩, 1, 3⟩
      = some ⟨⟨7, 4⟩, 1, 8⟩ := h.1 rfl
  exact ⟨⟨by decide, rfl⟩, h1, h.2.2.2.1, h.2.2.2.2.2.1, h.2.2.2.2.2.2⟩

/-- Claim C9: observers and the initial state.  `is_locked()` is true
exactly when the caller's id equals the stored owner; `recursion_depth()`
is the recursion count when `is_locked()` and 0 otherwise (both are pure
functions of the state — the embedding takes the state and returns no new
one, so neither mutates); a fresh lock has ticket counters 0, owner 0 and
recursion 0, and reports `is_locked()` false and `recursion_depth()` 0 for
every (nonzero) caller. -/
theorem C9_observers (id : Nat) (hid : 0 < id) (s : til.recursive_ticket_lock) :
    (til.recursive_ticket_lock.is_locked id s = true ↔ s._owner = id)
    ∧ til.recursive_ticket_lock.recursion_depth id s
        = (if s._owner = id then s._recursion else 0)
    ∧ til.recursive_ticket_lock.init = ⟨⟨0, 0⟩, 0, 0⟩
    ∧ til.recursive_ticket_lock.is_locked id til.recursive_ticket_lock.init = false
    ∧ til.recursive_ticket_lock.recursion_depth id til.recursive_ticket_lock.init = 0 := by
  have hne : (0 : Nat) ≠ id := by omega
  refine ⟨?_, ?_, rfl, ?_, ?_⟩
  · simp [til.recursive_ticket_lock.is_locked]
  · simp [til.recursive_ticket_lock.recursion_depth, til.recursive_ticket_lock.is_locked]
  · simp [til.recursive_ticket_lock.is_locked, til.recursive_ticket_lock.init,
      til.ticket_lock.init, hne]
  · simp [til.recursive_ticket_lock.recursion_depth, til.recursive_ticket_lock.is_locked,
      til.recursive_ticket_lock.init, til.ticket_lock.init, hne]

/-- Witness for C9 at id 1, with the held state `⟨⟨1,0⟩, 1, 3⟩` for the
observer equations and the fresh lock for the initial-state ones. -/
theorem C9_witness :
    ((0 : Nat) < 1)
    ∧ (til.recursive_ticket_lock.is_locked 1 ⟨⟨1, 0⟩, 1, 3⟩ = true
        ↔ (⟨⟨1, 0⟩, 1, 3⟩ : til.recursive_ticket_lock)._owner = 1)
    ∧ til.recursive_ticket_lock.recursion_depth 1 ⟨⟨1, 0⟩, 1, 3⟩
        = (if (⟨⟨1, 0⟩, 1, 3⟩ : til.recursive_ticket_lock)._owner = 1
            then (⟨⟨1, 0⟩, 1, 3⟩ : til.recursive_ticket_lock)._recursion else 0)
    ∧ til.recursive_ticket_lock.is_locked 1 til.recursive_ticket_lock.init = false
    ∧ til.recursive_ticket_lock.recursion_depth 1 til.recursive_ticket_lock.init = 0 := by
  have h := C9_observers 1 (by decide) ⟨⟨1, 0⟩, 1, 3⟩
  have h2 := C9_observers 1 (by decide) til.recursive_ticket_lock.init
  exact ⟨by decide, h.1, h.2.1, h2.2.2.2.1, h2.2.2.2.2⟩

/-- Claim C10 (implicit): repeated suspend is a no-op.  From a held state
(owner `id`, depth `d`, `1 ≤ d < W`), the first `suspend()` releases and
returns token `⟨id, d⟩`; a second `suspend()` on the now-released state
(before the first token is destroyed, no re-locking in between) observes
owner 0 ≠ id, leaves the state unchanged and returns a `⟨0, 0⟩` token,
whose destruction is a no-op on any state; only the first token restores
the lock — its destruction reinstates owner `id` at depth exactly `d`. -/
theorem C10_repeated_suspend (id d n : Nat) (hid : id ≠ 0) (hd : 1 ≤ d) (hdW : d < W) :
    til.recursive_ticket_lock.suspend id ⟨⟨n + 1, n⟩, id, d⟩
      = (⟨⟨n + 1, n + 1⟩, 0, 0⟩, ⟨id, d⟩)
    ∧ til.recursive_ticket_lock.suspend id ⟨⟨n + 1, n + 1⟩, 0, 0⟩
      = (⟨⟨n + 1, n + 1⟩, 0, 0⟩, ⟨0, 0⟩)
    ∧ (∀ s2 : til.recursive_ticket_lock,
        til.recursive_ticket_lock_suspension.destroy ⟨0, 0⟩ s2 = some s2)
    ∧ til.recursive_ticket_lock_suspension.destroy ⟨id, d⟩ ⟨⟨n + 1, n + 1⟩, 0, 0⟩
      = some ⟨⟨n + 2, n + 1⟩, id, d⟩
    ∧ til.recursive_ticket_lock.is_locked id ⟨⟨n + 2, n + 1⟩, id, d⟩ = true
    ∧ til.recursive_ticket_lock.recursion_depth id ⟨⟨n + 2, n + 1⟩, id, d⟩ = d := by
  have hne : (0 : Nat) ≠ id := Ne.symm hid
  refine ⟨?_, ?_, ?_, ?_, ?_, ?_⟩
  · simp [til.recursive_ticket_lock.suspend, til.ticket_lock.unlock]
  · simp [til.recursive_ticket_lock.suspend, hne]
  · intro s2
    simp [til.recursive_ticket_lock_suspension.destroy]
  · simp [til.recursive_ticket_lock_suspension.destroy, hid, hne,
      til.ticket_lock.lock, Nat.mod_eq_of_lt hdW]
  · simp [til.recursive_ticket_lock.is_locked]
  · simp [til.recursive_ticket_lock.recursion_depth, til.recursive_ticket_lock.is_locked]

/-- Witness for C10 at id 1, depth 2, n = 0. -/
theorem C10_witness :
    (((1 : Nat) ≠ 0) ∧ (1 : Nat) ≤ 2 ∧ 2 < W)
    ∧ til.recursive_ticket_lock.suspend 1 ⟨⟨1, 1⟩, 0, 0⟩
        = (⟨⟨1, 1⟩, 0, 0⟩, ⟨0, 0⟩)
    ∧ til.recursive_ticket_lock_suspension.destroy ⟨0, 0⟩ ⟨⟨1, 1⟩, 0, 0⟩
        = some ⟨⟨1, 1⟩, 0, 0⟩
    ∧ til.recursive_ticket_lock_suspension.destroy ⟨1, 2⟩ ⟨⟨1, 1⟩, 0, 0⟩
        = some ⟨⟨2, 1⟩, 1, 2⟩
    ∧ til.recursive_ticket_lock.recursion_depth 1 ⟨⟨2, 1⟩, 1, 2⟩ = 2 := by
  have h := C10_repeated_suspend 1 2 0 (by decide) (by decide) (by decide)
  exact ⟨⟨by decide, by decide, by decide⟩, h.2.1, h.2.2.1 ⟨⟨1, 1⟩, 0, 0⟩,
    h.2.2.2.1, h.2.2.2.2.2⟩
